import Mathlib

/-!
Verification of the AuDRA Guideline Corpus Chunking & Hybrid Retrieval Engine.

This development shallowly embeds the Python code of
`src/guidelines/indexer.py`, `src/guidelines/retriever.py` and
`src/services/vector_store.py` into Lean.  Strings are modelled as lists of
characters (`Str`), Python floats as rationals (`ℚ`, an exact idealisation of
the decimal arithmetic in the source), and the duck-typed finding/metadata
dictionaries as records of their typed fields, following the record embedding
recommended by the specification's design notes.  All definitions are
executable; the theorems at the end of the file settle the frozen claims.
-/

namespace AuDRA

/-- Python strings, modelled as lists of characters. -/
abbrev Str := List Char

/-- Coerce a Lean string literal to the `Str` model. -/
def str (s : String) : Str := s.data

/-! ## Python string primitives

`wcAux`/`wordCount` model `len(text.split())` (whitespace-run splitting with
empty pieces dropped); `pyStrip` models `str.strip()`; `joinSep` models
`sep.join(pieces)`; `splitSepAux`/`splitSep` model `str.split(sep)` for a
two-character separator (the only separator used by the source, `"\n\n"`).
The source documents only ever contain ASCII whitespace, for which Lean's
`Char.isWhitespace` agrees with Python's whitespace classes. -/

/-- Word counting: `inWord` records whether the previous character was a
non-whitespace character.  `wcAux false s = len(s.split())` in Python. -/
def wcAux : Bool → Str → Nat
  | _, [] => 0
  | inWord, c :: cs =>
      if c.isWhitespace then wcAux false cs
      else (if inWord then 0 else 1) + wcAux true cs

/-- `wordCount s` models Python's `len(s.split())`. -/
def wordCount (s : Str) : Nat := wcAux false s

/-- Python `str.strip()`: drop whitespace from both ends. -/
def pyStrip (s : Str) : Str :=
  ((s.dropWhile Char.isWhitespace).reverse.dropWhile Char.isWhitespace).reverse

/-- Python `sep.join(pieces)`. -/
def joinSep (sep : Str) : List Str → Str
  | [] => []
  | [x] => x
  | x :: y :: xs => x ++ sep ++ joinSep sep (y :: xs)

/-- Scanner for `str.split(sep)` with a two-character separator `c1 c2`:
pieces are accumulated in reverse in `acc`; separators are consumed
left-to-right and non-overlapping, exactly as in CPython. -/
def splitSepAux (sep1 sep2 : Char) : Str → Str → List Str
  | acc, [] => [acc.reverse]
  | acc, [c] => [(c :: acc).reverse]
  | acc, c :: c2 :: rest =>
      if c = sep1 ∧ c2 = sep2 then acc.reverse :: splitSepAux sep1 sep2 [] rest
      else splitSepAux sep1 sep2 (c :: acc) (c2 :: rest)

/-- Python `s.split(c1 + c2)` for a two-character separator. -/
def splitSep2 (sep1 sep2 : Char) (s : Str) : List Str := splitSepAux sep1 sep2 [] s

/-- Python `s.split("\n\n")`, as used for paragraph splitting. -/
def splitParagraphs (s : Str) : List Str := splitSep2 '\n' '\n' s

/-- Python `str.lower()` (ASCII case folding; the source only compares
ASCII keywords). -/
def lowerStr (s : Str) : Str := s.map Char.toLower

/-- `strHasPrefix hay needle` models Python `hay.startswith(needle)`. -/
def strHasPrefix : Str → Str → Bool
  | _, [] => true
  | [], _ :: _ => false
  | c :: cs, d :: ds => c = d && strHasPrefix cs ds

/-- `strContains hay needle` models Python's `needle in hay`. -/
def strContains : Str → Str → Bool
  | hay, needle =>
      match hay with
      | [] => strHasPrefix [] needle
      | _ :: rest => strHasPrefix hay needle || strContains rest needle

/-! ## `GuidelineRetriever._normalize_risk`

```python
@staticmethod
def _normalize_risk(value):
    if not value:
        return None
    lowered = str(value).strip().lower()
    if "high" in lowered:
        return "high"
    if "intermediate" in lowered:
        return "intermediate"
    if "low" in lowered:
        return "low"
    return None
```

The input domain is modelled as `Option Str`: `none` models Python `None`
(and other absent values) and `some []` models the falsy empty string; both
take the `if not value` early return. -/

def normalizeRisk (value : Option Str) : Option Str :=
  match value with
  | none => none
  | some s =>
      if s = [] then none
      else
        let lowered := lowerStr (pyStrip s)
        if strContains lowered (str "high") then some (str "high")
        else if strContains lowered (str "intermediate") then some (str "intermediate")
        else if strContains lowered (str "low") then some (str "low")
        else none

/-! ## Data model of the retriever

The Python metadata and finding dictionaries are duck-typed `Dict[str, object]`
maps.  Following the specification's design notes they are embedded as records
of their typed optional fields; a missing dictionary key is `none`.  Numeric
fields hold rationals (the numeric values Python's `float` coercion accepts);
`_coerce_float` on this typed domain is the identity on present values. -/

/-- Metadata payload of an indexed chunk / retrieved hit
(`metadata` dictionary in the source). -/
structure Meta where
  source : Option Str := none
  category : Option Str := none
  citation : Option Str := none
  recommendation : Option Str := none
  size_min_mm : Option ℚ := none
  size_max_mm : Option ℚ := none
  risk_level : Option Str := none
  modality : Option Str := none
  deriving DecidableEq, Repr

/-- `RetrievedDocument` dataclass from `retriever.py`. -/
structure RetrievedDocument where
  id : Str
  text : Str
  score : ℚ
  metadata : Meta
  deriving DecidableEq, Repr

/-- The value of a finding's `characteristics` key: absent, a list
(`isinstance(..., (list, tuple, set))` branch), or a scalar string. -/
inductive CharsVal where
  | noneV
  | listV (items : List Str)
  | strV (s : Str)
  deriving DecidableEq, Repr

/-- A clinical finding (the `finding: Dict[str, object]` argument). -/
structure Finding where
  type : Option Str := none
  finding_type : Option Str := none
  characteristics : CharsVal := .noneV
  size_mm : Option ℚ := none
  organ : Option Str := none
  location : Option Str := none
  anatomical_location : Option Str := none
  risk_level : Option Str := none
  deriving DecidableEq, Repr

/-- `GuidelineRetriever._coerce_float` restricted to the typed metadata
domain: numeric values pass through, absent values give `None`. -/
def coerceFloat (v : Option ℚ) : Option ℚ := v

/-- Python truthiness of a possibly-absent string: `None` and `""` are
falsy, every non-empty string is truthy. -/
def truthyS : Option Str → Bool
  | some (_ :: _) => true
  | _ => false

/-- Python `a or b` on possibly-absent strings. -/
def pyOrStr (a b : Option Str) : Option Str := if truthyS a then a else b

/-! ## `GuidelineRetriever.rerank_results`

```python
for doc in results:
    score = doc.score
    size_min = self._coerce_float(metadata.get("size_min_mm"))
    size_max = self._coerce_float(metadata.get("size_max_mm"))
    if target_size is not None and size_min is not None and size_max is not None:
        if size_min <= target_size <= size_max:
            score += 2.0
        else:
            distance = min(abs(target_size - size_min), abs(target_size - size_max))
            score -= min(distance / 10.0, 1.5)
    if risk_level:
        chunk_risk = metadata.get("risk_level")
        if chunk_risk and chunk_risk.lower() == risk_level:
            score += 0.5
    reranked.append(RetrievedDocument(...))
reranked.sort(key=lambda item: item.score, reverse=True)
```
-/

/-- Score adjustment applied to one document inside the `rerank_results`
loop.  `target_size = _coerce_float(finding.get("size_mm"))` and
`risk_level = _normalize_risk(finding.get("risk_level"))` are computed once
outside the loop in the source and passed in here pre-computed. -/
def adjustScore (target_size : Option ℚ) (risk_level : Option Str)
    (doc : RetrievedDocument) : ℚ :=
  let size_min := coerceFloat doc.metadata.size_min_mm
  let size_max := coerceFloat doc.metadata.size_max_mm
  let score :=
    match target_size, size_min, size_max with
    | some t, some mn, some mx =>
        if mn ≤ t ∧ t ≤ mx then doc.score + 2
        else doc.score - min (min |t - mn| |t - mx| / 10) (3 / 2 : ℚ)
    | _, _, _ => doc.score
  if truthyS risk_level then
    match doc.metadata.risk_level with
    | some cr => if cr ≠ [] ∧ lowerStr cr = risk_level.getD [] then score + 1 / 2 else score
    | none => score
  else score

/-- Stable descending sort, modelling Python's
`list.sort(key=..., reverse=True)` (Timsort is a stable sort; with
`reverse=True` it yields the order "descending by key, ties in original
order", which is what this insertion sort computes — see the sortedness,
permutation and stability theorems proved below). -/
def insertDescBy (score : α → ℚ) (x : α) : List α → List α
  | [] => [x]
  | y :: ys => if score y ≤ score x then x :: y :: ys else y :: insertDescBy score x ys

/-- See `insertDescBy`. -/
def pySortDesc (score : α → ℚ) : List α → List α
  | [] => []
  | x :: xs => insertDescBy score x (pySortDesc score xs)

/-- `GuidelineRetriever.rerank_results`. -/
def rerankResults (results : List RetrievedDocument) (finding : Finding) :
    List RetrievedDocument :=
  let target_size := coerceFloat finding.size_mm
  let risk_level := normalizeRisk finding.risk_level
  let reranked := results.map fun doc =>
    { doc with score := adjustScore target_size risk_level doc }
  pySortDesc RetrievedDocument.score reranked

/-! ## `f"{value:g}"` float formatting

Model of CPython's general float format with the default precision 6:
round to six significant digits, strip trailing zeros, use fixed notation
when the decimal exponent lies in `[-4, 6)` and scientific notation (with a
sign and at least two exponent digits) otherwise.  Ties round half-up here
(a benign idealisation of binary-float rounding, never exercised by any
theorem below). -/

/-- Decimal digits of a natural number, most significant first. -/
def natDigits (n : Nat) : Str := Nat.toDigits 10 n

/-- Remove trailing `'0'` characters. -/
def stripTrailingZeros (s : Str) : Str := (s.reverse.dropWhile (fun c => c = '0')).reverse

/-- `formatGPos a` formats a positive rational like CPython's `"%g" % a`. -/
def formatGPos (a : ℚ) : Str :=
  let e : Int :=
    if 1 ≤ a then (Nat.log 10 a.floor.toNat : Int)
    else
      let bound := Nat.log 10 a.den + 2
      let k := ((List.range (bound + 1)).find? fun k =>
        decide (1 ≤ k) && decide (1 ≤ a * (10 : ℚ) ^ k)).getD 1
      Int.neg (k : Int)
  let m : Nat := (round (a * (10 : ℚ) ^ ((5 : Int) - e))).toNat
  let me : Nat × Int := if m ≥ 10 ^ 6 then (m / 10, e + 1) else (m, e)
  let ds := stripTrailingZeros (natDigits me.1)
  let e := me.2
  if -4 ≤ e ∧ e < 6 then
    if 0 ≤ e then
      let k := e.toNat + 1
      let intPart := if ds.length < k then ds ++ List.replicate (k - ds.length) '0' else ds.take k
      let fracPart := ds.drop k
      intPart ++ (if fracPart = [] then [] else '.' :: fracPart)
    else
      str "0." ++ List.replicate ((-e).toNat - 1) '0' ++ ds
  else
    let mant := ds.take 1 ++ (if ds.drop 1 = [] then [] else '.' :: ds.drop 1)
    let esign : Str := if e < 0 then str "-" else str "+"
    let eds := natDigits (if e < 0 then (-e).toNat else e.toNat)
    let eds := if eds.length < 2 then List.replicate (2 - eds.length) '0' ++ eds else eds
    mant ++ str "e" ++ esign ++ eds

/-- Python `f"{value:g}"` on the rational model of floats. -/
def formatG (q : ℚ) : Str :=
  if q = 0 then str "0"
  else if q < 0 then '-' :: formatGPos (-q) else formatGPos q

/-! ## `GuidelineRetriever.build_query_text`

```python
components = []
finding_type = finding.get("type") or finding.get("finding_type")
if finding_type:
    components.append(str(finding_type))
characteristics = finding.get("characteristics")
if isinstance(characteristics, (list, tuple, set)):
    components.extend(str(item) for item in characteristics if item)
elif characteristics:
    components.append(str(characteristics))
size_mm = self._coerce_float(finding.get("size_mm"))
if size_mm is not None:
    components.append(f"{size_mm:g}mm")
location = finding.get("location") or finding.get("anatomical_location")
if location:
    components.append(str(location))
risk_level = self._normalize_risk(finding.get("risk_level"))
if risk_level:
    components.append(f"{risk_level} risk patient")
if not components:
    components.append("incidental imaging finding")
components.append("follow-up recommendation")
return " ".join(components)
```
-/

/-- The components list assembled by `build_query_text` before the
placeholder / suffix handling. -/
def queryComponents (finding : Finding) : List Str :=
  let c1 :=
    let finding_type := pyOrStr finding.type finding.finding_type
    if truthyS finding_type then [finding_type.getD []] else []
  let c2 :=
    match finding.characteristics with
    | .listV items => items.filter fun i => i ≠ []
    | .strV s => if s ≠ [] then [s] else []
    | .noneV => []
  let c3 :=
    match coerceFloat finding.size_mm with
    | some v => [formatG v ++ str "mm"]
    | none => []
  let c4 :=
    let location := pyOrStr finding.location finding.anatomical_location
    if truthyS location then [location.getD []] else []
  let c5 :=
    match normalizeRisk finding.risk_level with
    | some rl => if rl ≠ [] then [rl ++ str " risk patient"] else []
    | none => []
  c1 ++ c2 ++ c3 ++ c4 ++ c5

/-- `GuidelineRetriever.build_query_text`. -/
def buildQueryText (finding : Finding) : Str :=
  let components := queryComponents finding
  let components := if components = [] then [str "incidental imaging finding"] else components
  joinSep (str " ") (components ++ [str "follow-up recommendation"])

/-! ## `GuidelineIndexer.SIZE_PATTERNS` and `_extract_size_range`

```python
SIZE_PATTERNS = (
    (re.compile(r"(\d+(?:\.\d+)?)\s*-\s*(\d+(?:\.\d+)?)\s*mm", re.IGNORECASE), "range"),
    (re.compile(r"(?:≥|>=)\s*(\d+(?:\.\d+)?)\s*mm", re.IGNORECASE), "gte"),
    (re.compile(r"(?:≤|<=)\s*(\d+(?:\.\d+)?)\s*mm", re.IGNORECASE), "lte"),
    (re.compile(r"<\s*(\d+(?:\.\d+)?)\s*mm", re.IGNORECASE), "lt"),
    (re.compile(r">\s*(\d+(?:\.\d+)?)\s*mm", re.IGNORECASE), "gt"),
    (re.compile(r"(\d+(?:\.\d+)?)\s*mm", re.IGNORECASE), "single"),
)
```

The regexes are deterministic (no productive backtracking: after giving a
digit back, the following `\s*-`/`\s*mm` can never match a digit), so each
is embedded as a maximal-munch matcher at a position plus a leftmost scan,
which is exactly `re.search`'s leftmost-match semantics for them. -/

/-- Take a maximal run of ASCII digits (`\d+`, greedy). -/
def takeDigits : Str → Str × Str
  | [] => ([], [])
  | c :: cs =>
      if c.isDigit then
        let r := takeDigits cs
        (c :: r.1, r.2)
      else ([], c :: cs)

/-- Numeric value of a digit run. -/
def digitsVal (ds : Str) : Nat := ds.foldl (fun acc c => acc * 10 + (c.toNat - '0'.toNat)) 0

/-- Match `\d+(?:\.\d+)?` at the current position; returns the Python
`float(...)` value of the captured text and the remaining input. -/
def parseNumAt (s : Str) : Option (ℚ × Str) :=
  let d := takeDigits s
  if d.1 = [] then none
  else
    let intVal : ℚ := (digitsVal d.1 : ℚ)
    match d.2 with
    | '.' :: rest2 =>
        let f := takeDigits rest2
        if f.1 = [] then some (intVal, d.2)
        else some (intVal + (digitsVal f.1 : ℚ) / (10 : ℚ) ^ f.1.length, f.2)
    | _ => some (intVal, d.2)

/-- `\s*` (greedy whitespace skip). -/
def skipWs (s : Str) : Str := s.dropWhile Char.isWhitespace

/-- Match the literal `mm` case-insensitively (`re.IGNORECASE`). -/
def matchMM : Str → Bool
  | c1 :: c2 :: _ => (c1 = 'm' ∨ c1 = 'M') ∧ (c2 = 'm' ∨ c2 = 'M')
  | _ => false

/-- The `range` pattern at a position; captures both numbers. -/
def matchRangeAt (s : Str) : Option (ℚ × ℚ) :=
  (parseNumAt s).bind fun a =>
    match skipWs a.2 with
    | '-' :: r3 =>
        (parseNumAt (skipWs r3)).bind fun b =>
          if matchMM (skipWs b.2) then some (a.1, b.1) else none
    | _ => none

/-- Shared tail `\s*(\d+(?:\.\d+)?)\s*mm` of the inequality patterns. -/
def matchNumMM (s : Str) : Option ℚ :=
  (parseNumAt (skipWs s)).bind fun v =>
    if matchMM (skipWs v.2) then some v.1 else none

/-- The `gte` pattern `(?:≥|>=)\s*(\d+(?:\.\d+)?)\s*mm` at a position. -/
def matchGteAt : Str → Option ℚ
  | '≥' :: r => matchNumMM r
  | '>' :: '=' :: r => matchNumMM r
  | _ => none

/-- The `lte` pattern `(?:≤|<=)\s*(\d+(?:\.\d+)?)\s*mm` at a position. -/
def matchLteAt : Str → Option ℚ
  | '≤' :: r => matchNumMM r
  | '<' :: '=' :: r => matchNumMM r
  | _ => none

/-- The `lt` pattern `<\s*(\d+(?:\.\d+)?)\s*mm` at a position. -/
def matchLtAt : Str → Option ℚ
  | '<' :: r => matchNumMM r
  | _ => none

/-- The `gt` pattern `>\s*(\d+(?:\.\d+)?)\s*mm` at a position. -/
def matchGtAt : Str → Option ℚ
  | '>' :: r => matchNumMM r
  | _ => none

/-- The `single` pattern `(\d+(?:\.\d+)?)\s*mm` at a position. -/
def matchSingleAt (s : Str) : Option ℚ := matchNumMM s

/-- `pattern.search(text)`: try the position matcher at each position, left
to right, returning the first (leftmost) match. -/
def searchPat (m : Str → Option β) : Str → Option β
  | [] => m []
  | s@(_ :: t) =>
      match m s with
      | some r => some r
      | none => searchPat m t

/-- `GuidelineIndexer.OPEN_ENDED_MAX`. -/
def OPEN_ENDED_MAX : ℚ := 999

/-- `GuidelineIndexer._extract_size_range`: try the six pattern families in
declaration order; the first one matching anywhere in the text decides. -/
def extractSizeRange (text : Str) : Option ℚ × Option ℚ :=
  match searchPat matchRangeAt text with
  | some se => (some se.1, some se.2)
  | none =>
  match searchPat matchGteAt text with
  | some v => (some v, some OPEN_ENDED_MAX)
  | none =>
  match searchPat matchLteAt text with
  | some v => (some 0, some v)
  | none =>
  match searchPat matchLtAt text with
  | some v => (some 0, some v)
  | none =>
  match searchPat matchGtAt text with
  | some v => (some v, some OPEN_ENDED_MAX)
  | none =>
  match searchPat matchSingleAt text with
  | some v => (some v, some v)
  | none => (none, none)

/-! ## `GuidelineIndexer._infer_risk_level` and `_infer_modality` -/

/-- `_infer_risk_level`: the `matches` list holds at most one copy of each
level, so `len(set(matches)) == 1` is `len(matches) == 1`. -/
def inferRiskLevel (text : Str) : Option Str :=
  let lowered := lowerStr text
  let found :=
    (if strContains lowered (str "high risk") then [str "high"] else []) ++
    (if strContains lowered (str "low risk") then [str "low"] else []) ++
    (if strContains lowered (str "intermediate risk") then [str "intermediate"] else [])
  match found with
  | [] => none
  | [m] => some m
  | _ => some (str "mixed")

/-- Python `\w` word characters (ASCII scope, as used by the source's
keyword patterns). -/
def isWordChar (c : Char) : Bool := c.isAlphanum || c = '_'

/-- Match a lowercase literal case-insensitively at a position, returning
the rest of the input. -/
def matchLitCI : Str → Str → Option Str
  | [], s => some s
  | _ :: _, [] => none
  | l :: ls, c :: cs => if Char.toLower c = l then matchLitCI ls cs else none

/-- The `PET-CT` pattern (literal `pet`, then an optional hyphen or slash,
then literal `ct`) at a position.  The optional separator is deterministic:
when the next character is a hyphen or slash it must be consumed. -/
def matchPetCt (s : Str) : Option Str :=
  (matchLitCI (str "pet") s).bind fun r =>
    let r2 := match r with
      | c :: rest => if c = '-' ∨ c = '/' then rest else r
      | [] => r
    matchLitCI (str "ct") r2

/-- `re.search` for a `\b...\b`-delimited keyword pattern: scan positions
left to right, checking the word boundary on both sides. -/
def kwSearchAux (m : Str → Option Str) (prev : Option Char) : Str → Bool
  | [] => false
  | s@(c :: rest) =>
      let okBefore := match prev with
        | some p => !isWordChar p
        | none => true
      (if okBefore then
        match m s with
        | some r =>
            match r with
            | [] => true
            | c2 :: _ => !isWordChar c2
        | none => false
      else false) || kwSearchAux m (some c) rest

/-- Search a boundary-delimited keyword pattern in a text. -/
def kwSearch (m : Str → Option Str) (text : Str) : Bool := kwSearchAux m none text

/-- `GuidelineIndexer._infer_modality`: ordered keyword table, first
pattern with a match wins. -/
def inferModality (text : Str) : Option Str :=
  if kwSearch matchPetCt text then some (str "PET-CT")
  else if kwSearch (matchLitCI (str "pet")) text then some (str "PET")
  else if kwSearch (matchLitCI (str "mri")) text then some (str "MRI")
  else if kwSearch (matchLitCI (str "ldct")) text then some (str "CT")
  else if kwSearch (matchLitCI (str "ct")) text then some (str "CT")
  else if kwSearch (matchLitCI (str "ultrasound")) text then some (str "Ultrasound")
  else if kwSearch (matchLitCI (str "ceus")) text then some (str "CEUS")
  else if kwSearch (matchLitCI (str "biopsy")) text then some (str "Biopsy")
  else none

/-! ## `GuidelineIndexer` section chunking

Constants from the class body. -/

def MIN_WORDS : Nat := 100
def TARGET_MIN_WORDS : Nat := 200
def TARGET_MAX_WORDS : Nat := 400
def MAX_WORDS : Nat := 500

/-- `[.?!]`, the lookbehind class of `SENTENCE_SPLIT_PATTERN`. -/
def isSentPunct (c : Char) : Bool := c = '.' || c = '?' || c = '!'

/-- `[A-Z0-9]`, the lookahead class of `SENTENCE_SPLIT_PATTERN`. -/
def isUpperDigit (c : Char) : Bool := ('A' ≤ c && c ≤ 'Z') || c.isDigit

/-- State machine for `re.split` of the pattern
`(?<=[.?!])\s+(?=[A-Z0-9])`: a split happens at every maximal whitespace
run whose preceding character is a sentence punctuation mark and whose
following character is an ASCII capital or digit; the run itself is
removed.  `accRev` holds the current piece reversed, `pendRev` a pending
whitespace run reversed, and `elig` whether that run is preceded by
punctuation. -/
def sentAux : Str → Str → Bool → Str → List Str
  | accRev, pendRev, _, [] => [(accRev.reverse) ++ (pendRev.reverse)]
  | accRev, pendRev, elig, c :: rest =>
      if c.isWhitespace then
        if pendRev = [] then
          sentAux accRev [c] (match accRev with
            | p :: _ => isSentPunct p
            | [] => false) rest
        else sentAux accRev (c :: pendRev) elig rest
      else
        if pendRev ≠ [] ∧ elig ∧ isUpperDigit c then
          accRev.reverse :: sentAux [c] [] false rest
        else
          sentAux (c :: (pendRev ++ accRev)) [] false rest

/-- `SENTENCE_SPLIT_PATTERN.split(chunk)`. -/
def splitSentences (s : Str) : List Str := sentAux [] [] false s

/-- The paragraph accumulate-and-flush loop of `_split_large_section`:

```python
for paragraph in paragraphs:
    candidate = "\n\n".join([*current, paragraph]).strip()
    if current and self._word_count(candidate) > self.MAX_WORDS:
        chunks.append("\n\n".join(current).strip())
        current = [paragraph]
    else:
        current.append(paragraph)
if current:
    chunks.append("\n\n".join(current).strip())
```
-/
def paraLoop : List Str → List Str → List Str → List Str
  | [], current, chunks =>
      chunks ++ (if current = [] then [] else [pyStrip (joinSep (str "\n\n") current)])
  | p :: rest, current, chunks =>
      let candidate := pyStrip (joinSep (str "\n\n") (current ++ [p]))
      if current ≠ [] ∧ wordCount candidate > MAX_WORDS then
        paraLoop rest [p] (chunks ++ [pyStrip (joinSep (str "\n\n") current)])
      else paraLoop rest (current ++ [p]) chunks

/-- The sentence accumulate-and-flush loop of `_split_large_section`
(same shape as `paraLoop`, with a space as joiner). -/
def sentLoop : List Str → List Str → List Str → List Str
  | [], buffer, out =>
      out ++ (if buffer = [] then [] else [pyStrip (joinSep (str " ") buffer)])
  | s :: rest, buffer, out =>
      let candidate := pyStrip (joinSep (str " ") (buffer ++ [s]))
      if buffer ≠ [] ∧ wordCount candidate > MAX_WORDS then
        sentLoop rest [s] (out ++ [pyStrip (joinSep (str " ") buffer)])
      else sentLoop rest (buffer ++ [s]) out

/-- Second stage of `_split_large_section`: chunks within the word bound
pass through, oversized chunks are re-split on sentence boundaries. -/
def normalizeChunk (chunk : Str) : List Str :=
  if wordCount chunk ≤ MAX_WORDS then [chunk]
  else sentLoop (splitSentences chunk) [] []

/-- The paragraph-stage output of `_split_large_section` (the local
`chunks` list before sentence normalization). -/
def paraChunks (body : Str) : List Str :=
  let paragraphs := ((splitParagraphs body).map pyStrip).filter fun p => p ≠ []
  paraLoop paragraphs [] []

/-- `GuidelineIndexer._split_large_section`. -/
def splitLargeSection (body : Str) : List Str :=
  let paragraphs := ((splitParagraphs body).map pyStrip).filter fun p => p ≠ []
  if paragraphs = [] then [body]
  else ((paraChunks body).flatMap normalizeChunk).filter fun c => c ≠ []

/-- A section record as passed between `_parse_sections`,
`chunk_guideline` and `_merge_small_sections` (the stored `word_count`
always equals `_word_count(body)`, so it is recomputed rather than
stored). The heading `level` is stored by the source but never read
downstream. -/
structure PSection where
  title : Str
  level : Nat
  body : Str
  deriving DecidableEq, Repr

/-- Heading recognition for `SECTION_PATTERN` `^(##+)\s+(.*)$` (multiline):
a line consisting of two-or-more `#` marks, at least one whitespace
character, and the title.  (The exotic sub-case in which `\s+` swallows the
line's own newline — a heading line with nothing after the `#` run — does
not occur in guideline corpora and is outside this model.) -/
def headingOf (line : Str) : Option (Nat × Str) :=
  let hashes := line.takeWhile fun c => c = '#'
  if hashes.length ≥ 2 then
    let rest := line.drop hashes.length
    if rest ≠ [] ∧ (rest.headD ' ').isWhitespace then
      some (hashes.length, rest.dropWhile Char.isWhitespace)
    else none
  else none

/-- Python `s.split("\n")`. -/
def splitNl : Str → List Str
  | [] => [[]]
  | c :: cs =>
      if c = '\n' then [] :: splitNl cs
      else
        match splitNl cs with
        | line :: rest => (c :: line) :: rest
        | [] => [[c]]

/-- Group lines into the prefix before the first heading and, per heading,
the lines until the next heading. -/
def groupAux : List Str → List Str × List ((Nat × Str) × List Str)
  | [] => ([], [])
  | line :: rest =>
      let r := groupAux rest
      match headingOf line with
      | some h => ([], (h, r.1) :: r.2)
      | none => (line :: r.1, r.2)

/-- `GuidelineIndexer._parse_sections`.  Bodies are the text between a
heading's end and the next heading's start, stripped; sections with empty
bodies are skipped; a non-empty prefix before the first heading becomes an
`Overview` section at level 2; with no headings at all the whole stripped
content is one `Overview` section (empty content yields no sections). -/
def parseSections (content : Str) : List PSection :=
  let g := groupAux (splitNl content)
  if g.2 = [] then
    let stripped := pyStrip content
    if stripped = [] then [] else [⟨str "Overview", 2, stripped⟩]
  else
    let pre := pyStrip (joinSep (str "\n") g.1)
    let preSec : List PSection := if pre = [] then [] else [⟨str "Overview", 2, pre⟩]
    preSec ++ g.2.filterMap fun hb =>
      let body := pyStrip (joinSep (str "\n") hb.2)
      if body = [] then none
      else some ⟨pyStrip hb.1.2, hb.1.1, body⟩

/-- Title/body pair flowing through `_merge_small_sections`. -/
structure MSection where
  title : Str
  body : Str
  deriving DecidableEq, Repr

/-- Fold one section into the accumulation buffer (titles joined with
a vertical-bar separator, bodies with a blank line, then stripped). -/
def combineSections (a b : MSection) : MSection :=
  ⟨a.title ++ str " | " ++ b.title, pyStrip (a.body ++ str "\n\n" ++ b.body)⟩

/-- Append the leftover buffer into the last emitted section
(`merged[-1]`), or emit it alone when nothing was emitted. -/
def appendIntoLast : List MSection → MSection → List MSection
  | [], buf => [buf]
  | [x], buf => [combineSections x buf]
  | x :: y :: xs, buf => x :: appendIntoLast (y :: xs) buf

/-- The loop of `_merge_small_sections`.  In the source, after the buffer
is emitted (`merged.append(buffer); buffer = None`) control falls through
to the ordinary `word_count < MIN_WORDS` handling of the current section,
whose `else` sub-branch is then unreachable; the two reachable outcomes
are written out here. -/
def mergeLoop : List MSection → Option MSection → List MSection → List MSection
  | [], none, merged => merged
  | [], some buf, merged => appendIntoLast merged buf
  | s :: rest, some buf, merged =>
      if wordCount buf.body < TARGET_MIN_WORDS then
        mergeLoop rest (some (combineSections buf s)) merged
      else if wordCount s.body < MIN_WORDS then
        mergeLoop rest (some s) (merged ++ [buf])
      else
        mergeLoop rest none (merged ++ [buf, s])
  | s :: rest, none, merged =>
      if wordCount s.body < MIN_WORDS then mergeLoop rest (some s) merged
      else mergeLoop rest none (merged ++ [s])

/-- `GuidelineIndexer._merge_small_sections`. -/
def mergeSmallSections (sections : List MSection) : List MSection :=
  mergeLoop sections none []

/-- `GuidelineChunk` dataclass.  The random `chunk_id` (`str(uuid.uuid4())`)
is produced by an external entropy source and is not part of the model; no
claim concerns it. -/
structure GuidelineChunk where
  text : Str
  source : Str
  category : Str
  size_min_mm : Option ℚ
  size_max_mm : Option ℚ
  risk_level : Option Str
  recommendation : Str
  citation : Str
  modality : Option Str
  deriving DecidableEq, Repr

/-- One split part's title/body pair inside the per-section loop of
`chunk_guideline` (empty parts are skipped; a part suffix is added only
when a section was actually split). -/
def partOf (secTitle : Str) (splitsLen : Nat) (ip : Nat × Str) : Option MSection :=
  let part := pyStrip ip.2
  if part = [] then none
  else
    let title :=
      if splitsLen > 1 then
        secTitle ++ str " (part " ++ natDigits (ip.1 + 1) ++ str ")"
      else secTitle
    some ⟨title, part⟩

/-- The per-section body of the first loop of `chunk_guideline`: strip,
skip empty, split large sections, and collect the non-empty parts. -/
def processSection (sec : PSection) : List MSection :=
  let body := pyStrip sec.body
  if body = [] then []
  else
    let splits := splitLargeSection body
    splits.enum.filterMap (partOf sec.title splits.length)

/-- The per-merged-section body of the second loop of `chunk_guideline`:
build the chunk text and infer the metadata fields. -/
def chunkOfSection (source_name : Str) (sec : MSection) : Option GuidelineChunk :=
  let body := pyStrip sec.body
  if body = [] then none
  else
    let text := pyStrip (sec.title ++ str "\n\n" ++ body)
    let sz := extractSizeRange text
    some { text := text
           source := source_name
           category := sec.title
           size_min_mm := sz.1
           size_max_mm := sz.2
           risk_level := inferRiskLevel text
           recommendation := body
           citation := []
           modality := inferModality text }

/-- `GuidelineIndexer.chunk_guideline`. -/
def chunkGuideline (content source_name : Str) : List GuidelineChunk :=
  let sections := parseSections content
  let sections := if sections = [] then [⟨str "Overview", 2, pyStrip content⟩] else sections
  let processed : List MSection := sections.flatMap processSection
  let merged := mergeSmallSections processed
  merged.filterMap (chunkOfSection source_name)

/-! ## `VectorStore.hybrid_search`

```python
fused = {}
for rank, hit in enumerate(semantic_results, start=1):
    doc_id = hit["id"]
    score = weight_semantic * (1.0 / (rrf_k + rank))
    fused.setdefault(doc_id, hit.copy())
    fused[doc_id]["score"] = fused.get(doc_id, {}).get("score", 0.0) + score
for rank, hit in enumerate(keyword_results, start=1):
    ... same with weight_keyword ...
sorted_hits = sorted(fused.values(), key=lambda item: item.get("score", 0.0), reverse=True)
return sorted_hits[:top_k]
```

A formatted hit (`_format_hits`) always carries a `score` key, so the
`setdefault(doc_id, hit.copy())` seeds a document's accumulator with the
raw retrieval score of the first hit seen for that document; the
`.get("score", 0.0)` default of `0.0` is never used.  The `fused` dict is
modelled as an insertion-ordered association list, which is exactly the
iteration order of a Python dict. -/

/-- A raw search hit as shaped by `VectorStore._format_hits`. -/
structure Hit where
  id : Str
  text : Str
  metadata : Meta
  score : ℚ
  deriving DecidableEq, Repr

/-- The `fused` dict: insertion-ordered key/value pairs. -/
abbrev FusedMap := List (Str × Hit)

/-- `fused.get(k)` / `fused[k]`. -/
def fusedLookup (m : FusedMap) (k : Str) : Option Hit :=
  match m with
  | [] => none
  | kv :: rest => if kv.1 = k then some kv.2 else fusedLookup rest k

/-- `fused.setdefault(k, v)`: insert at the end when the key is absent. -/
def fusedSetdefault (m : FusedMap) (k : Str) (v : Hit) : FusedMap :=
  match m with
  | [] => [(k, v)]
  | kv :: rest => if kv.1 = k then kv :: rest else kv :: fusedSetdefault rest k v

/-- `fused[k]["score"] = s`: update the stored hit's score in place. -/
def fusedSetScore (m : FusedMap) (k : Str) (s : ℚ) : FusedMap :=
  match m with
  | [] => []
  | kv :: rest =>
      if kv.1 = k then (kv.1, { kv.2 with score := s }) :: rest
      else kv :: fusedSetScore rest k s

/-- One `for rank, hit in enumerate(results, start=1)` fusion pass with
weight `w` (`rrf_k = 60.0`). -/
def fuseList (w : ℚ) : Nat → List Hit → FusedMap → FusedMap
  | _, [], m => m
  | rank, hit :: rest, m =>
      let contribution := w * (1 / (60 + (rank : ℚ)))
      let m1 := fusedSetdefault m hit.id hit
      let cur := ((fusedLookup m1 hit.id).map Hit.score).getD 0
      fuseList w (rank + 1) rest (fusedSetScore m1 hit.id (cur + contribution))

/-- `VectorStore.hybrid_search`, as a function of the two collaborator
result lists (`_semantic_search` and `_keyword_search` responses) and
`top_k`; `weight_semantic = 0.7`, `weight_keyword = 0.3`. -/
def hybridSearch (semantic_results keyword_results : List Hit) (top_k : Nat) : List Hit :=
  let fused := fuseList (7 / 10) 1 semantic_results []
  let fused := fuseList (3 / 10) 1 keyword_results fused
  (pySortDesc Hit.score (fused.map Prod.snd)).take top_k

/-! ## `GuidelineRetriever.retrieve` -/

/-- The `filters` dict built by `_build_filters`; an absent key is `none`
(for `sources`, the empty list — the key is only set when non-empty). -/
structure SearchFilters where
  finding_size : Option ℚ := none
  patient_risk : Option Str := none
  sources : List Str := []
  deriving DecidableEq, Repr

/-- `GuidelineRetriever._infer_sources`. -/
def inferSources (finding : Finding) : List Str :=
  let vals := [finding.type, finding.finding_type, finding.organ,
    finding.location, finding.anatomical_location]
  let text := joinSep (str " ")
    ((vals.filter fun v => truthyS v).map fun v => lowerStr (v.getD []))
  let s1 :=
    if strContains text (str "lung") || strContains text (str "pulmon")
        || strContains text (str "nodule") then
      [str "Fleischner Society Pulmonary Nodule Recommendations (2017)",
       str "ACR Lung-RADS® v2022 (Lung CT Screening Reporting & Data System)"]
    else []
  let s2 :=
    if strContains text (str "liver") || strContains text (str "hepatic") then
      [str "ACR Incidental Findings Committee – Management of Incidental Liver Lesions on CT (2017)"]
    else []
  s1 ++ s2

/-- `GuidelineRetriever._build_filters`. -/
def buildFilters (finding : Finding) : SearchFilters :=
  { finding_size := coerceFloat finding.size_mm
    patient_risk :=
      let risk := normalizeRisk finding.risk_level
      if truthyS risk then risk else none
    sources := inferSources finding }

/-- The vector-store collaborator, as response oracles for the three query
shapes `retrieve` can issue (each closed over the query embedding / query
text, which the engine forwards verbatim). -/
structure VectorStoreModel where
  semantic : Nat → List Hit
  keyword : Nat → List Hit
  filtered : Nat → SearchFilters → List Hit

/-- `VectorStore.hybrid_search` at the collaborator level: the two
sub-searches are issued with `top_k * 3`. -/
def hybridSearchVS (vs : VectorStoreModel) (top_k : Nat) : List Hit :=
  hybridSearch (vs.semantic (top_k * 3)) (vs.keyword (top_k * 3)) top_k

/-- Python `text.splitlines()` for texts whose line breaks are `\n`. -/
def splitLines (s : Str) : List Str :=
  if s = [] then []
  else
    let l := splitNl s
    if l.getLast? = some [] then l.dropLast else l

/-- `GuidelineRetriever._extract_recommendation`. -/
def extractRecommendation (text : Str) : Str :=
  if text = [] then []
  else
    let lines := splitLines text
    if lines.length ≤ 1 then pyStrip text
    else pyStrip (joinSep (str "\n") (lines.drop 1))

/-- `GuidelineRetriever._to_chunk` (the model's `GuidelineChunk` omits the
`chunk_id` field, which `_to_chunk` copies from `document.id`). -/
def toChunk (doc : RetrievedDocument) : GuidelineChunk :=
  let md := doc.metadata
  { text := doc.text
    source := match md.source with
      | some (c :: cs) => c :: cs
      | _ => str "Unknown source"
    category := match md.category with
      | some (c :: cs) => c :: cs
      | _ => str "General"
    size_min_mm := coerceFloat md.size_min_mm
    size_max_mm := coerceFloat md.size_max_mm
    risk_level := md.risk_level
    recommendation := match md.recommendation with
      | some (c :: cs) => c :: cs
      | _ => extractRecommendation doc.text
    citation := md.citation.getD []
    modality := md.modality }

/-- `GuidelineRetriever.retrieve`.  The logging side effects carry no data
flow and are not modelled; the `ValueError` raise is the `Except.error`
result. -/
def retrieve (vs : VectorStoreModel) (finding : Finding) (top_k : Int)
    (use_filters : Bool) : Except Str (List GuidelineChunk) :=
  if top_k ≤ 0 then .error (str "top_k must be positive.")
  else
    let filters := if use_filters then buildFilters finding else {}
    let filtersTruthy := filters.finding_size.isSome || filters.patient_risk.isSome
      || filters.sources ≠ []
    let allowed_sources : Option (List Str) :=
      if filtersTruthy then
        (if filters.sources ≠ [] then some filters.sources else none)
      else none
    let filters := { filters with sources := [] }
    let search_top_k : Nat := max (top_k.toNat * 3) 15
    let raw_hits :=
      if filters.finding_size.isSome || filters.patient_risk.isSome then
        vs.filtered search_top_k filters
      else hybridSearchVS vs search_top_k
    let documents := raw_hits.map fun hit =>
      RetrievedDocument.mk hit.id hit.text hit.score hit.metadata
    let documents :=
      match allowed_sources with
      | some allowed@(_ :: _) =>
          documents.filter fun doc =>
            allowed.any fun src => lowerStr (doc.metadata.source.getD []) = lowerStr src
      | _ => documents
    let reranked := rerankResults documents finding
    .ok ((reranked.take top_k.toNat).map toChunk)

/-! ## Specification-side definitions and concrete instances

Definitions in this section are not translations of source code: they state
the quantities the specification talks about (per-document RRF
contributions, the reranker's score adjustment as worded in the spec, the
query text as worded in the spec) and concrete inputs used by the
counterexample and witness theorems. -/

/-- Total reciprocal-rank contribution of the occurrences of id `i` in a
hit list, ranks counted from `r`: each occurrence at 1-indexed rank `rank`
contributes `w * (1 / (60 + rank))`. -/
def contribSum (w : ℚ) : Nat → List Hit → Str → ℚ
  | _, [], _ => 0
  | r, h :: rest, i =>
      (if h.id = i then w * (1 / (60 + (r : ℚ))) else 0) + contribSum w (r + 1) rest i

/-- The raw score seeding a document's fused accumulator: the score of the
first hit carrying its id, semantic list first. -/
def seedScore (sem kw : List Hit) (i : Str) : ℚ :=
  match (sem ++ kw).find? (fun h => h.id = i) with
  | some h => h.score
  | none => 0

/-- Every entry of the fused dict is keyed by its hit's id. -/
def Keyed (m : FusedMap) : Prop := ∀ kv ∈ m, kv.1 = (kv.2 : Hit).id

/-- The reranker's score adjustment as worded by the specification: start
from the incoming score; if the finding has a numeric size and the chunk
declares both bounds, add `+2.0` when the size lies within `[min, max]`
inclusive, else subtract `min(distance_to_nearest_bound / 10, 1.5)` with
distance to the closer bound; if the finding's normalized risk level
matches the chunk's `risk_level` case-insensitively, add `+0.5`. -/
def specAdjustedScore (f : Finding) (d : RetrievedDocument) : ℚ :=
  let sizeAdj : ℚ :=
    match f.size_mm, d.metadata.size_min_mm, d.metadata.size_max_mm with
    | some t, some mn, some mx =>
        if mn ≤ t ∧ t ≤ mx then 2
        else -(min (min |t - mn| |t - mx| / 10) (3 / 2 : ℚ))
    | _, _, _ => 0
  let riskAdj : ℚ :=
    match normalizeRisk f.risk_level, d.metadata.risk_level with
    | some rl, some cr => if lowerStr cr = rl then 1 / 2 else 0
    | _, _ => 0
  d.score + sizeAdj + riskAdj

/-- The retrieval query as worded by the specification: finding type, then
each characteristic, then the size as `{value:g}mm`, then location, then
`{level} risk patient`; the placeholder when no component is available; the
literal suffix always last. -/
def specQueryText (f : Finding) : Str :=
  let comps :=
    (if truthyS (pyOrStr f.type f.finding_type) then [(pyOrStr f.type f.finding_type).getD []] else [])
    ++ (match f.characteristics with
        | .listV items => items.filter fun i => i ≠ []
        | .strV sv => if sv ≠ [] then [sv] else []
        | .noneV => [])
    ++ (match f.size_mm with
        | some v => [formatG v ++ str "mm"]
        | none => [])
    ++ (if truthyS (pyOrStr f.location f.anatomical_location) then
          [(pyOrStr f.location f.anatomical_location).getD []] else [])
    ++ (match normalizeRisk f.risk_level with
        | some rl => [rl ++ str " risk patient"]
        | none => [])
  joinSep (str " ")
    ((if comps = [] then [str "incidental imaging finding"] else comps)
      ++ [str "follow-up recommendation"])

/-- The per-document frame of a retrieved document: everything except the
mutable score. -/
def docFrame (d : RetrievedDocument) : Str × Str × Meta := (d.id, d.text, d.metadata)

/-- Concrete hits for the fusion counterexample and witnesses. -/
def hitA1 : Hit := { id := str "A", text := str "tA", metadata := {}, score := 1 }

def hitA0 : Hit := { id := str "A", text := str "tA", metadata := {}, score := 0 }

def hitB0 : Hit := { id := str "B", text := str "tB", metadata := {}, score := 0 }

/-- A finding with size 6 mm, as in the reranker test vectors. -/
def finding6 : Finding := { size_mm := some 6 }

/-- A retrieved document with score `b` and declared size range `[mn, mx]`. -/
def docBase (b mn mx : ℚ) : RetrievedDocument :=
  { id := str "d", text := str "t", score := b,
    metadata := { size_min_mm := some mn, size_max_mm := some mx } }

/-- A vector store whose every response is empty. -/
def vsEmpty : VectorStoreModel :=
  { semantic := fun _ => [], keyword := fun _ => [], filtered := fun _ _ => [] }

/-- The word block of the chunking counterexample: `qRep n` is `n + 1`
copies of the word `Q` separated by single spaces. -/
def qRep : Nat → Str
  | 0 => ['Q']
  | n + 1 => 'Q' :: ' ' :: qRep n

/-- Guideline content with two headed sections: a one-word section `Qa`
(body `Q.`) and a 500-word section `Qz` (body `qRep 499`).  The first
section is under 100 words, so the merge stage buffers it and then absorbs
the entire second section, emitting a single 501-word chunk whose
sentences have 1 and 500 words. -/
def c2content : Str := str "## Qa\nQ.\n## Qz\n" ++ qRep 499

/-- The body of the single chunk produced from `c2content`. -/
def c2body : Str := str "Q.\n\n" ++ qRep 499

/-- The category title of that chunk. -/
def c2title : Str := str "Qa | Qz"

/-- The text of that chunk. -/
def c2text : Str := c2title ++ str "\n\n" ++ c2body

/-- The single chunk produced by `chunk_guideline` from `c2content`. -/
def c2chunk : GuidelineChunk :=
  { text := c2text, source := str "SRC", category := c2title,
    size_min_mm := none, size_max_mm := none, risk_level := none,
    recommendation := c2body, citation := [], modality := none }

/-- The characters occurring in the counterexample content. -/
def c2charOK (c : Char) : Prop :=
  c = 'Q' ∨ c = 'a' ∨ c = 'z' ∨ c = ' ' ∨ c = '|' ∨ c = '\n' ∨ c = '.' ∨ c = '#'

/-! ## Lemmas about the stable descending sort -/

theorem insertDescBy_perm (score : α → ℚ) (x : α) (l : List α) :
    List.Perm (insertDescBy score x l) (x :: l) := by
  induction l with
  | nil => simp [insertDescBy]
  | cons y ys ih =>
      by_cases h : score y ≤ score x
      · simp [insertDescBy, h]
      · simp only [insertDescBy, if_neg h]
        exact (ih.cons y).trans (List.Perm.swap x y ys)

theorem pySortDesc_perm (score : α → ℚ) (l : List α) :
    List.Perm (pySortDesc score l) l := by
  induction l with
  | nil => simp [pySortDesc]
  | cons x xs ih =>
      exact (insertDescBy_perm score x (pySortDesc score xs)).trans (ih.cons x)

theorem pairwise_insertDescBy (score : α → ℚ) (x : α) (l : List α)
    (h : l.Pairwise fun a b => score b ≤ score a) :
    (insertDescBy score x l).Pairwise fun a b => score b ≤ score a := by
  induction l with
  | nil => simp [insertDescBy]
  | cons y ys ih =>
      rcases List.pairwise_cons.mp h with ⟨hy, hys⟩
      by_cases hcmp : score y ≤ score x
      · simp only [insertDescBy, if_pos hcmp]
        refine List.pairwise_cons.mpr ⟨?_, h⟩
        intro z hz
        rcases List.mem_cons.mp hz with rfl | hz
        · exact hcmp
        · exact (hy z hz).trans hcmp
      · simp only [insertDescBy, if_neg hcmp]
        refine List.pairwise_cons.mpr ⟨?_, ih hys⟩
        intro z hz
        have hz' := (insertDescBy_perm score x ys).mem_iff.mp hz
        rcases List.mem_cons.mp hz' with rfl | hz'
        · exact le_of_lt (lt_of_not_le hcmp)
        · exact hy z hz'

theorem pySortDesc_pairwise (score : α → ℚ) (l : List α) :
    (pySortDesc score l).Pairwise fun a b => score b ≤ score a := by
  induction l with
  | nil => simp [pySortDesc]
  | cons x xs ih => exact pairwise_insertDescBy score x _ ih

theorem filter_insertDescBy (score : α → ℚ) (q : ℚ) (x : α) (l : List α) :
    (insertDescBy score x l).filter (fun a => decide (score a = q)) =
      if score x = q then x :: l.filter (fun a => decide (score a = q))
      else l.filter fun a => decide (score a = q) := by
  induction l with
  | nil => by_cases h : score x = q <;> simp [insertDescBy, List.filter, h]
  | cons y ys ih =>
      by_cases hcmp : score y ≤ score x
      · have hins : insertDescBy score x (y :: ys) = x :: y :: ys := by
          simp [insertDescBy, hcmp]
        rw [hins]
        by_cases hx : score x = q
        · rw [if_pos hx]
          simp [List.filter_cons, hx]
        · rw [if_neg hx]
          simp [List.filter_cons, hx]
      · have hins : insertDescBy score x (y :: ys) = y :: insertDescBy score x ys := by
          simp [insertDescBy, hcmp]
        have hlt : score x < score y := lt_of_not_le hcmp
        rw [hins]
        by_cases hy : score y = q
        · have hx : ¬ score x = q := by
            intro hx
            exact absurd (hx.trans hy.symm) (ne_of_lt hlt)
          rw [if_neg hx]
          simp [List.filter_cons, hy, ih, hx]
        · by_cases hx : score x = q
          · rw [if_pos hx]
            simp [List.filter_cons, hy, ih, hx]
          · rw [if_neg hx]
            simp [List.filter_cons, hy, ih, hx]

theorem filter_pySortDesc (score : α → ℚ) (q : ℚ) (l : List α) :
    (pySortDesc score l).filter (fun a => decide (score a = q)) =
      l.filter fun a => decide (score a = q) := by
  induction l with
  | nil => simp [pySortDesc]
  | cons x xs ih =>
      by_cases hx : score x = q <;>
        simp [pySortDesc, filter_insertDescBy, hx, List.filter, ih]

theorem pySortDesc_length (score : α → ℚ) (l : List α) :
    (pySortDesc score l).length = l.length :=
  (pySortDesc_perm score l).length_eq

/-! ## Lemmas about word counting -/

theorem wcAux_dropWhile (s : Str) :
    wcAux false (s.dropWhile Char.isWhitespace) = wcAux false s := by
  induction s with
  | nil => rfl
  | cons c cs ih =>
      by_cases h : c.isWhitespace
      · simp [List.dropWhile_cons, h, wcAux, ih]
      · simp [List.dropWhile_cons, h, wcAux]

theorem wcAux_of_allWs (b : Bool) (s : Str) (h : ∀ c ∈ s, c.isWhitespace) :
    wcAux b s = 0 := by
  induction s generalizing b with
  | nil => rfl
  | cons c cs ih =>
      have hc : c.isWhitespace := h c (List.mem_cons_self c cs)
      simp only [wcAux, hc, if_true]
      exact ih false fun d hd => h d (List.mem_cons_of_mem c hd)

theorem wcAux_append_allWs (b : Bool) (s t : Str) (h : ∀ c ∈ t, c.isWhitespace) :
    wcAux b (s ++ t) = wcAux b s := by
  induction s generalizing b with
  | nil => simpa using wcAux_of_allWs b t h
  | cons c cs ih =>
      by_cases hc : c.isWhitespace <;> simp [wcAux, hc, ih]

theorem wcAux_append_ws_cons (b : Bool) (w : Char) (hw : w.isWhitespace)
    (s t : Str) : wcAux b (s ++ w :: t) = wcAux b s + wcAux false t := by
  induction s generalizing b with
  | nil => simp [wcAux, hw]
  | cons c cs ih =>
      by_cases hc : c.isWhitespace
      · simp [wcAux, hc, ih]
      · simp [wcAux, hc, ih, Nat.add_assoc]

theorem wordCount_pyStrip (s : Str) : wordCount (pyStrip s) = wordCount s := by
  unfold wordCount pyStrip
  set u := s.dropWhile Char.isWhitespace with hu
  have h1 : wcAux false s = wcAux false u := (wcAux_dropWhile s).symm
  have hsplit : u = (u.reverse.dropWhile Char.isWhitespace).reverse
      ++ (u.reverse.takeWhile Char.isWhitespace).reverse := by
    have := List.takeWhile_append_dropWhile (p := Char.isWhitespace) (l := u.reverse)
    calc u = u.reverse.reverse := by rw [List.reverse_reverse]
    _ = (u.reverse.takeWhile Char.isWhitespace ++ u.reverse.dropWhile Char.isWhitespace).reverse := by
          rw [this]
    _ = (u.reverse.dropWhile Char.isWhitespace).reverse
          ++ (u.reverse.takeWhile Char.isWhitespace).reverse := by
          rw [List.reverse_append]
  rw [h1]
  conv_rhs => rw [hsplit]
  rw [wcAux_append_allWs]
  intro c hc
  rw [List.mem_reverse] at hc
  exact List.mem_takeWhile_imp hc

theorem wcAux_splitSepAux (w1 w2 : Char) (h1 : w1.isWhitespace) (h2 : w2.isWhitespace) :
    ∀ (s acc : Str),
      ((splitSepAux w1 w2 acc s).map wordCount).sum = wordCount (acc.reverse ++ s)
  | [], acc => by simp [splitSepAux, wordCount]
  | [c], acc => by
      simp [splitSepAux, wordCount, List.reverse_cons]
  | c :: c2 :: rest, acc => by
      by_cases hsep : c = w1 ∧ c2 = w2
      · have hcw : c.isWhitespace := by rw [hsep.1]; exact h1
        have hc2w : c2.isWhitespace := by rw [hsep.2]; exact h2
        have ih := wcAux_splitSepAux w1 w2 h1 h2 rest []
        simp only [splitSepAux, if_pos hsep, List.map_cons, List.sum_cons, ih]
        simp only [wordCount, List.reverse_nil, List.nil_append]
        rw [wcAux_append_ws_cons false c hcw]
        have hstep : wcAux false (c2 :: rest) = wcAux false rest := by
          simp [wcAux, hc2w]
        rw [hstep]
      · have ih := wcAux_splitSepAux w1 w2 h1 h2 (c2 :: rest) (c :: acc)
        simp only [splitSepAux, if_neg hsep, ih, List.reverse_cons]
        rw [List.append_assoc]
        rfl

theorem wordCount_splitParagraphs_sum (s : Str) :
    ((splitParagraphs s).map wordCount).sum = wordCount s := by
  have := wcAux_splitSepAux '\n' '\n' (by decide) (by decide) s []
  simpa [splitParagraphs, splitSep2] using this

theorem wordCount_zero_of_paragraphs_nil (body : Str)
    (h : ((splitParagraphs body).map pyStrip).filter (fun p => p ≠ []) = []) :
    wordCount body = 0 := by
  rw [← wordCount_splitParagraphs_sum body]
  rw [List.filter_eq_nil_iff] at h
  apply List.sum_eq_zero
  intro n hn
  rw [List.mem_map] at hn
  rcases hn with ⟨p, hp, rfl⟩
  have hstrip : pyStrip p = [] := by
    have := h (pyStrip p) (List.mem_map_of_mem pyStrip hp)
    simpa using this
  rw [← wordCount_pyStrip p, hstrip]
  rfl

/-! ## The word bound of `_split_large_section` -/

theorem sentLoop_bound (S : List Str) :
    ∀ (ss buffer out : List Str),
      (∀ s ∈ ss, s ∈ S) →
      (buffer = [] ∨ wordCount (pyStrip (joinSep (str " ") buffer)) ≤ MAX_WORDS
        ∨ ∃ s ∈ S, buffer = [s]) →
      (∀ c ∈ out, wordCount c ≤ MAX_WORDS ∨ ∃ s ∈ S, c = pyStrip s) →
      ∀ c ∈ sentLoop ss buffer out,
        wordCount c ≤ MAX_WORDS ∨ ∃ s ∈ S, c = pyStrip s := by
  intro ss
  induction ss with
  | nil =>
      intro buffer out _ hbuf hout c hc
      simp only [sentLoop] at hc
      rcases List.mem_append.mp hc with hc | hc
      · exact hout c hc
      · by_cases hb : buffer = []
        · simp [hb] at hc
        · rw [if_neg hb] at hc
          simp only [List.mem_singleton] at hc
          subst hc
          rcases hbuf with hbuf | hbuf | ⟨s, hs, hbuf⟩
          · exact absurd hbuf hb
          · exact Or.inl hbuf
          · subst hbuf
            exact Or.inr ⟨s, hs, rfl⟩
  | cons s rest ih =>
      intro buffer out hss hbuf hout c hc
      have hsS : s ∈ S := hss s (List.mem_cons_self s rest)
      have hrest : ∀ t ∈ rest, t ∈ S := fun t ht => hss t (List.mem_cons_of_mem s ht)
      simp only [sentLoop] at hc
      by_cases hflush : buffer ≠ [] ∧
          wordCount (pyStrip (joinSep (str " ") (buffer ++ [s]))) > MAX_WORDS
      · rw [if_pos hflush] at hc
        refine ih [s] _ hrest (Or.inr (Or.inr ⟨s, hsS, rfl⟩)) ?_ c hc
        intro d hd
        rcases List.mem_append.mp hd with hd | hd
        · exact hout d hd
        · simp only [List.mem_singleton] at hd
          subst hd
          rcases hbuf with hbuf | hbuf | ⟨t, ht, hbuf⟩
          · exact absurd hbuf hflush.1
          · exact Or.inl hbuf
          · subst hbuf
            exact Or.inr ⟨t, ht, rfl⟩
      · rw [if_neg hflush] at hc
        refine ih (buffer ++ [s]) _ hrest ?_ hout c hc
        by_cases hb : buffer = []
        · subst hb
          exact Or.inr (Or.inr ⟨s, hsS, rfl⟩)
        · right; left
          have := not_and.mp hflush hb
          omega

theorem normalizeChunk_bound (chunk c : Str) (hc : c ∈ normalizeChunk chunk) :
    wordCount c ≤ MAX_WORDS ∨
      (MAX_WORDS < wordCount chunk ∧ ∃ s ∈ splitSentences chunk, c = pyStrip s) := by
  unfold normalizeChunk at hc
  by_cases h : wordCount chunk ≤ MAX_WORDS
  · rw [if_pos h] at hc
    simp only [List.mem_singleton] at hc
    subst hc
    exact Or.inl h
  · rw [if_neg h] at hc
    have := sentLoop_bound (splitSentences chunk) (splitSentences chunk) [] []
      (fun _ hs => hs) (Or.inl rfl) (by simp) c hc
    rcases this with hle | ⟨s, hs, rfl⟩
    · exact Or.inl hle
    · exact Or.inr ⟨lt_of_not_le h, s, hs, rfl⟩

theorem splitLargeSection_bound (body : Str) :
    ∀ c ∈ splitLargeSection body,
      wordCount c ≤ MAX_WORDS ∨
        ∃ chunk ∈ paraChunks body, MAX_WORDS < wordCount chunk ∧
          ∃ s ∈ splitSentences chunk, c = pyStrip s ∧ MAX_WORDS < wordCount s := by
  intro c hc
  unfold splitLargeSection at hc
  by_cases hp : ((splitParagraphs body).map pyStrip).filter (fun p => p ≠ []) = []
  · rw [if_pos hp] at hc
    simp only [List.mem_singleton] at hc
    left
    rw [hc, wordCount_zero_of_paragraphs_nil body hp]
    exact Nat.zero_le _
  · rw [if_neg hp] at hc
    have hc' := List.mem_filter.mp hc
    rcases List.mem_flatMap.mp hc'.1 with ⟨chunk, hchunk, hcn⟩
    rcases normalizeChunk_bound chunk c hcn with hle | ⟨hgt, s, hs, rfl⟩
    · exact Or.inl hle
    · by_cases hcw : wordCount (pyStrip s) ≤ MAX_WORDS
      · exact Or.inl hcw
      · refine Or.inr ⟨chunk, hchunk, hgt, s, hs, rfl, ?_⟩
        rw [← wordCount_pyStrip s]
        exact lt_of_not_le hcw

/-! ## Lemmas about RRF fusion -/

theorem fusedLookup_setdefault_self (m : FusedMap) (k : Str) (v : Hit) :
    fusedLookup (fusedSetdefault m k v) k = some ((fusedLookup m k).getD v) := by
  induction m with
  | nil => simp [fusedSetdefault, fusedLookup]
  | cons kv rest ih =>
      by_cases h : kv.1 = k <;> simp [fusedSetdefault, fusedLookup, h, ih]

theorem fusedLookup_setdefault_ne (m : FusedMap) (k k' : Str) (v : Hit)
    (h : k' ≠ k) :
    fusedLookup (fusedSetdefault m k v) k' = fusedLookup m k' := by
  induction m with
  | nil =>
      simp only [fusedSetdefault, fusedLookup]
      rw [if_neg fun he => h he.symm]
  | cons kv rest ih =>
      simp only [fusedSetdefault]
      by_cases hk : kv.1 = k
      · rw [if_pos hk]
      · rw [if_neg hk]
        simp only [fusedLookup]
        by_cases hk' : kv.1 = k'
        · rw [if_pos hk', if_pos hk']
        · rw [if_neg hk', if_neg hk', ih]

theorem fusedLookup_setScore_self (m : FusedMap) (k : Str) (s : ℚ) :
    fusedLookup (fusedSetScore m k s) k =
      (fusedLookup m k).map fun h => { h with score := s } := by
  induction m with
  | nil => simp [fusedSetScore, fusedLookup]
  | cons kv rest ih =>
      by_cases h : kv.1 = k <;> simp [fusedSetScore, fusedLookup, h, ih]

theorem fusedLookup_setScore_ne (m : FusedMap) (k k' : Str) (s : ℚ)
    (h : k' ≠ k) :
    fusedLookup (fusedSetScore m k s) k' = fusedLookup m k' := by
  induction m with
  | nil => simp [fusedSetScore, fusedLookup]
  | cons kv rest ih =>
      simp only [fusedSetScore]
      by_cases hk : kv.1 = k
      · rw [if_pos hk]
        simp only [fusedLookup]
        have hk'ne : ¬ kv.1 = k' := by
          rw [hk]
          exact fun he => h he.symm
        rw [if_neg hk'ne, if_neg hk'ne]
      · rw [if_neg hk]
        simp only [fusedLookup]
        by_cases hk' : kv.1 = k'
        · rw [if_pos hk', if_pos hk']
        · rw [if_neg hk', if_neg hk', ih]

theorem fuseList_lookup (w : ℚ) :
    ∀ (hits : List Hit) (r : Nat) (m : FusedMap) (i : Str),
      fusedLookup (fuseList w r hits m) i =
        match fusedLookup m i with
        | some h => some { h with score := h.score + contribSum w r hits i }
        | none =>
            match hits.find? (fun h => h.id = i) with
            | some h0 => some { h0 with score := h0.score + contribSum w r hits i }
            | none => none
  | [], r, m, i => by
      cases hm : fusedLookup m i <;> simp [fuseList, contribSum, hm]
  | h :: rest, r, m, i => by
      have ih := fuseList_lookup w rest (r + 1)
      simp only [fuseList]
      by_cases hik : h.id = i
      · subst hik
        have h1 : fusedLookup (fusedSetdefault m h.id h) h.id =
            some ((fusedLookup m h.id).getD h) := fusedLookup_setdefault_self m h.id h
        rw [ih, fusedLookup_setScore_self, h1]
        cases hm : fusedLookup m h.id with
        | some hm0 =>
            simp [hm, contribSum, List.find?_cons, mul_comm, add_assoc]
        | none =>
            simp [hm, contribSum, List.find?_cons, mul_comm, add_assoc]
      · have hne : i ≠ h.id := fun he => hik he.symm
        rw [ih, fusedLookup_setScore_ne _ _ _ _ hne, fusedLookup_setdefault_ne _ _ _ _ hne]
        cases hm : fusedLookup m i with
        | some hm0 => simp [hm, contribSum, hik]
        | none => simp [hm, contribSum, hik, List.find?_cons]

theorem keys_fusedSetScore (m : FusedMap) (k : Str) (s : ℚ) :
    (fusedSetScore m k s).map Prod.fst = m.map Prod.fst := by
  induction m with
  | nil => rfl
  | cons kv rest ih =>
      by_cases h : kv.1 = k <;> simp [fusedSetScore, h, ih]

theorem fusedLookup_isSome_iff_mem (m : FusedMap) (k : Str) :
    (fusedLookup m k).isSome ↔ k ∈ m.map Prod.fst := by
  induction m with
  | nil => simp [fusedLookup]
  | cons kv rest ih =>
      simp only [fusedLookup, List.map_cons, List.mem_cons]
      by_cases h : kv.1 = k
      · rw [if_pos h]
        exact ⟨fun _ => Or.inl h.symm, fun _ => rfl⟩
      · have hne : ¬ k = kv.1 := fun he => h he.symm
        rw [if_neg h]
        constructor
        · intro hh
          exact Or.inr (ih.mp hh)
        · intro hh
          rcases hh with he | hmem
          · exact absurd he hne
          · exact ih.mpr hmem

theorem keys_fusedSetdefault (m : FusedMap) (k : Str) (v : Hit) :
    (fusedSetdefault m k v).map Prod.fst =
      if k ∈ m.map Prod.fst then m.map Prod.fst else m.map Prod.fst ++ [k] := by
  induction m with
  | nil =>
      simp only [fusedSetdefault, List.map_nil, List.map_cons, List.nil_append]
      rw [if_neg (List.not_mem_nil k)]
  | cons kv rest ih =>
      simp only [fusedSetdefault]
      by_cases h : kv.1 = k
      · rw [if_pos h, if_pos (by rw [List.map_cons]; exact List.mem_cons.mpr (Or.inl h.symm))]
      · have hne : ¬ k = kv.1 := fun he => h he.symm
        rw [if_neg h]
        simp only [List.map_cons]
        rw [ih]
        by_cases hm : k ∈ rest.map Prod.fst
        · rw [if_pos hm, if_pos (by simp [List.mem_cons, hm])]
        · rw [if_neg hm, if_neg (by simp [List.mem_cons, hne, hm])]
          simp

theorem nodupKeys_fusedSetdefault (m : FusedMap) (k : Str) (v : Hit)
    (hnd : (m.map Prod.fst).Nodup) :
    ((fusedSetdefault m k v).map Prod.fst).Nodup := by
  rw [keys_fusedSetdefault]
  by_cases hm : k ∈ m.map Prod.fst
  · rw [if_pos hm]
    exact hnd
  · rw [if_neg hm, List.nodup_append]
    refine ⟨hnd, List.nodup_singleton k, ?_⟩
    intro a ha hb
    rw [List.mem_singleton] at hb
    exact hm (hb ▸ ha)

theorem nodupKeys_fuseList (w : ℚ) :
    ∀ (hits : List Hit) (r : Nat) (m : FusedMap),
      (m.map Prod.fst).Nodup → ((fuseList w r hits m).map Prod.fst).Nodup
  | [], _, m, h => h
  | h :: rest, r, m, hnd => by
      simp only [fuseList]
      apply nodupKeys_fuseList w rest (r + 1)
      rw [keys_fusedSetScore]
      exact nodupKeys_fusedSetdefault m h.id h hnd

theorem keyed_fusedSetdefault (m : FusedMap) (k : Str) (v : Hit)
    (hm : Keyed m) (hv : v.id = k) : Keyed (fusedSetdefault m k v) := by
  induction m with
  | nil =>
      intro kv hkv
      simp [fusedSetdefault] at hkv
      subst hkv
      exact hv.symm
  | cons kv0 rest ih =>
      intro kv hkv
      by_cases h : kv0.1 = k
      · simp only [fusedSetdefault, if_pos h] at hkv
        exact hm kv hkv
      · simp only [fusedSetdefault, if_neg h, List.mem_cons] at hkv
        rcases hkv with heq | hkv
        · rw [heq]
          exact hm kv0 (List.mem_cons_self kv0 rest)
        · exact ih (fun kv' hkv' => hm kv' (List.mem_cons_of_mem kv0 hkv')) kv hkv

theorem keyed_fusedSetScore (m : FusedMap) (k : Str) (s : ℚ) (hm : Keyed m) :
    Keyed (fusedSetScore m k s) := by
  induction m with
  | nil => intro kv hkv; simp [fusedSetScore] at hkv
  | cons kv0 rest ih =>
      intro kv hkv
      by_cases h : kv0.1 = k
      · simp only [fusedSetScore, if_pos h, List.mem_cons] at hkv
        rcases hkv with rfl | hkv
        · exact hm kv0 (List.mem_cons_self kv0 rest)
        · exact hm kv (List.mem_cons_of_mem kv0 hkv)
      · simp only [fusedSetScore, if_neg h, List.mem_cons] at hkv
        rcases hkv with rfl | hkv
        · exact hm kv (List.mem_cons_self kv rest)
        · exact ih (fun kv' hkv' => hm kv' (List.mem_cons_of_mem kv0 hkv')) kv hkv

theorem keyed_fuseList (w : ℚ) :
    ∀ (hits : List Hit) (r : Nat) (m : FusedMap), Keyed m → Keyed (fuseList w r hits m)
  | [], _, _, h => h
  | h :: rest, r, m, hm => by
      simp only [fuseList]
      apply keyed_fuseList w rest (r + 1)
      exact keyed_fusedSetScore _ _ _ (keyed_fusedSetdefault m h.id h hm rfl)

theorem fusedLookup_of_mem (m : FusedMap) (kv : Str × Hit)
    (hnd : (m.map Prod.fst).Nodup) (hkv : kv ∈ m) :
    fusedLookup m kv.1 = some kv.2 := by
  induction m with
  | nil => simp at hkv
  | cons kv0 rest ih =>
      rcases List.mem_cons.mp hkv with rfl | hkv'
      · simp [fusedLookup]
      · have hk : kv0.1 ≠ kv.1 := by
          intro he
          have : kv.1 ∈ rest.map Prod.fst := List.mem_map_of_mem Prod.fst hkv'
          rw [← he] at this
          exact (List.nodup_cons.mp hnd).1 this
        simp only [fusedLookup, if_neg hk]
        exact ih (List.nodup_cons.mp hnd).2 hkv'

theorem find?_append_cases (p : α → Bool) (l1 l2 : List α) :
    (l1 ++ l2).find? p =
      match l1.find? p with
      | some x => some x
      | none => l2.find? p := by
  induction l1 with
  | nil => simp
  | cons a l1 ih =>
      by_cases h : p a <;> simp [List.find?_cons, h, ih]

theorem contribSum_eq_zero (w : ℚ) :
    ∀ (r : Nat) (hits : List Hit) (i : Str),
      hits.find? (fun h => h.id = i) = none → contribSum w r hits i = 0
  | _, [], _, _ => rfl
  | r, a :: l, i, h => by
      by_cases ha : a.id = i
      · rw [List.find?_cons_of_pos _ (by simpa using ha)] at h
        exact absurd h (by simp)
      · rw [List.find?_cons_of_neg _ (by simpa using ha)] at h
        simp only [contribSum, if_neg ha]
        rw [contribSum_eq_zero w (r + 1) l i h]
        simp

/-- The score of every hit returned by `hybrid_search`: the raw score of
the first hit seen for that document, plus all reciprocal-rank
contributions from both lists; and the output is sorted descending. -/
theorem hybridSearch_score_eq (sem kw : List Hit) (top_k : Nat) :
    ∀ doc ∈ hybridSearch sem kw top_k,
      doc.score = seedScore sem kw doc.id
        + contribSum (7 / 10) 1 sem doc.id + contribSum (3 / 10) 1 kw doc.id := by
  intro doc hdoc
  have hdoc1 : doc ∈ pySortDesc Hit.score
      ((fuseList (3 / 10) 1 kw (fuseList (7 / 10) 1 sem [])).map Prod.snd) := by
    have := List.take_subset top_k (pySortDesc Hit.score
      ((fuseList (3 / 10) 1 kw (fuseList (7 / 10) 1 sem [])).map Prod.snd))
    exact this (by simpa [hybridSearch] using hdoc)
  have hdoc2 : doc ∈ (fuseList (3 / 10) 1 kw (fuseList (7 / 10) 1 sem [])).map Prod.snd :=
    (pySortDesc_perm Hit.score _).subset hdoc1
  rcases List.mem_map.mp hdoc2 with ⟨kv, hkv, hsnd⟩
  have hkey : kv.1 = kv.2.id :=
    keyed_fuseList (3 / 10) kw 1 _ (keyed_fuseList (7 / 10) sem 1 [] (by intro kv h; simp at h)) kv hkv
  have hnd : (((fuseList (3 / 10) 1 kw (fuseList (7 / 10) 1 sem [])).map Prod.fst)).Nodup :=
    nodupKeys_fuseList (3 / 10) kw 1 _ (nodupKeys_fuseList (7 / 10) sem 1 [] (by simp))
  have hlook := fusedLookup_of_mem _ kv hnd hkv
  rw [fuseList_lookup] at hlook
  have hlook1 := fuseList_lookup (7 / 10) sem 1 [] kv.1
  have hemp : fusedLookup [] kv.1 = none := rfl
  rw [hemp] at hlook1
  subst hsnd
  rw [hkey] at hlook hlook1
  unfold seedScore
  rw [find?_append_cases]
  cases hsem : sem.find? (fun h => h.id = kv.2.id) with
  | some h0 =>
      rw [hsem] at hlook1
      rw [hlook1] at hlook
      simp only at hlook
      have heq := Option.some.inj hlook
      have hs : kv.2.score = h0.score + contribSum (7 / 10) 1 sem kv.2.id
          + contribSum (3 / 10) 1 kw kv.2.id := (congrArg Hit.score heq).symm
      dsimp only
      exact hs
  | none =>
      rw [hsem] at hlook1
      rw [hlook1] at hlook
      simp only at hlook
      have hc1 := contribSum_eq_zero (7 / 10) 1 sem kv.2.id hsem
      cases hkw : kw.find? (fun h => h.id = kv.2.id) with
      | some k0 =>
          rw [hkw] at hlook
          simp only at hlook
          have heq := Option.some.inj hlook
          have hs : kv.2.score = k0.score + contribSum (3 / 10) 1 kw kv.2.id :=
            (congrArg Hit.score heq).symm
          dsimp only
          rw [hs, hc1]
          ring
      | none =>
          rw [hkw] at hlook
          simp at hlook

theorem hybridSearch_sorted (sem kw : List Hit) (top_k : Nat) :
    (hybridSearch sem kw top_k).Pairwise fun a b => b.score ≤ a.score := by
  unfold hybridSearch
  exact List.Pairwise.sublist (List.take_sublist _ _) (pySortDesc_pairwise Hit.score _)

/-! ## Symbolic evaluation of the chunking counterexample

`c2content` is about a thousand characters long; every fact about it is
proven by induction over the `qRep` word block rather than by evaluation. -/

theorem qRep_ne_nil (n : Nat) : qRep n ≠ [] := by
  cases n <;> simp [qRep]

theorem qRep_head? (n : Nat) : (qRep n).head? = some 'Q' := by
  cases n <;> rfl

theorem chars_qRep : ∀ (n : Nat), ∀ c ∈ qRep n, c = 'Q' ∨ c = ' '
  | 0, c, hc => by
      simp [qRep] at hc
      exact Or.inl hc
  | n + 1, c, hc => by
      simp only [qRep, List.mem_cons] at hc
      rcases hc with rfl | rfl | hc
      · exact Or.inl rfl
      · exact Or.inr rfl
      · exact chars_qRep n c hc

theorem getLast?_qRep : ∀ n : Nat, (qRep n).getLast? = some 'Q'
  | 0 => rfl
  | n + 1 => by
      show ('Q' :: ' ' :: qRep n).getLast? = some 'Q'
      rw [List.getLast?_cons_cons]
      cases hn : qRep n with
      | nil => exact absurd hn (qRep_ne_nil n)
      | cons c cs =>
          rw [List.getLast?_cons_cons, ← hn, getLast?_qRep n]

theorem wordCount_qRep : ∀ n : Nat, wordCount (qRep n) = n + 1
  | 0 => rfl
  | n + 1 => by
      show wcAux false ('Q' :: ' ' :: qRep n) = (n + 1) + 1
      have hq : ('Q').isWhitespace = false := rfl
      have hs : (' ').isWhitespace = true := rfl
      simp only [wcAux, hq, hs, if_false, if_true, Bool.false_eq_true, cond_false]
      have := wordCount_qRep n
      unfold wordCount at this
      omega

theorem splitNl_qRep : ∀ n : Nat, splitNl (qRep n) = [qRep n]
  | 0 => by simp [qRep, splitNl]
  | n + 1 => by
      show splitNl ('Q' :: ' ' :: qRep n) = _
      simp only [splitNl, splitNl_qRep n]
      rfl

theorem splitSepAux_of_no_nl :
    ∀ (s : Str), (∀ c ∈ s, c ≠ '\n') → ∀ acc, splitSepAux '\n' '\n' acc s = [acc.reverse ++ s]
  | [], _, acc => by simp [splitSepAux]
  | [c], _, acc => by simp [splitSepAux, List.reverse_cons]
  | c :: c2 :: rest, h, acc => by
      have hc : c ≠ '\n' := h c (List.mem_cons_self _ _)
      simp only [splitSepAux]
      rw [if_neg (by exact fun hand => hc hand.1)]
      rw [splitSepAux_of_no_nl (c2 :: rest) (fun d hd => h d (List.mem_cons_of_mem c hd)) (c :: acc)]
      simp

theorem no_nl_qRep (n : Nat) : ∀ c ∈ qRep n, c ≠ '\n' := by
  intro c hc
  rcases chars_qRep n c hc with rfl | rfl <;> decide

theorem splitParagraphs_qRep (n : Nat) : splitParagraphs (qRep n) = [qRep n] := by
  unfold splitParagraphs splitSep2
  rw [splitSepAux_of_no_nl (qRep n) (no_nl_qRep n) []]
  rfl

theorem head?_append_left (a b : Str) (h : a ≠ []) : (a ++ b).head? = a.head? := by
  cases a with
  | nil => exact absurd rfl h
  | cons c cs => rfl

theorem head?_reverse_eq_getLast? (l : Str) : l.reverse.head? = l.getLast? := by
  induction l with
  | nil => rfl
  | cons c cs ih =>
      rw [List.reverse_cons]
      cases cs with
      | nil => rfl
      | cons d ds =>
          rw [head?_append_left _ _ (by simp), ih, List.getLast?_cons_cons]

theorem dropWhile_ws_eq_self (s : Str)
    (h : ∀ c, s.head? = some c → ¬c.isWhitespace) :
    s.dropWhile Char.isWhitespace = s := by
  cases s with
  | nil => rfl
  | cons c cs =>
      rw [List.dropWhile_cons, if_neg (h c rfl)]

theorem pyStrip_eq_self (s : Str)
    (h1 : ∀ c, s.head? = some c → ¬c.isWhitespace)
    (h2 : ∀ c, s.getLast? = some c → ¬c.isWhitespace) :
    pyStrip s = s := by
  unfold pyStrip
  rw [dropWhile_ws_eq_self s h1]
  rw [dropWhile_ws_eq_self s.reverse
    (fun c hc => h2 c ((head?_reverse_eq_getLast? s) ▸ hc))]
  exact List.reverse_reverse s

theorem pyStrip_qRep (n : Nat) : pyStrip (qRep n) = qRep n := by
  apply pyStrip_eq_self
  · intro c hc
    rw [qRep_head? n] at hc
    cases hc
    decide
  · intro c hc
    rw [getLast?_qRep n] at hc
    cases hc
    decide

theorem sentAux_qRep : ∀ (n : Nat) (a p : Str),
    sentAux a p false (qRep n) = [(a.reverse ++ p.reverse) ++ qRep n]
  | 0, a, p => by
      show sentAux a p false ['Q'] = _
      simp only [sentAux]
      rw [if_neg (show ¬('Q'.isWhitespace = true) by decide)]
      rw [if_neg (show ¬(p ≠ [] ∧ false = true ∧ isUpperDigit 'Q' = true) from
        fun h => absurd h.2.1 (by decide))]
      show [('Q' :: (p ++ a)).reverse ++ ([] : Str).reverse] = _
      simp [List.reverse_cons, List.reverse_append, List.append_assoc, qRep]
  | n + 1, a, p => by
      show sentAux a p false ('Q' :: ' ' :: qRep n) = _
      simp only [sentAux]
      rw [if_neg (show ¬('Q'.isWhitespace = true) by decide)]
      rw [if_neg (show ¬(p ≠ [] ∧ false = true ∧ isUpperDigit 'Q' = true) from
        fun h => absurd h.2.1 (by decide))]
      rw [if_pos (show (' '.isWhitespace = true) by decide)]
      simp only [if_true]
      show sentAux ('Q' :: (p ++ a)) [' '] false (qRep n) = _
      rw [sentAux_qRep n ('Q' :: (p ++ a)) [' ']]
      simp only [List.reverse_cons, List.reverse_append, List.reverse_nil,
        List.nil_append, List.append_assoc, List.cons_append, List.singleton_append]
      rw [show ('Q' :: ' ' :: qRep n : Str) = qRep (n + 1) from rfl]

theorem sentAux_step_nonws (a p : Str) (elig : Bool) (c : Char) (rest : Str)
    (hc : ¬c.isWhitespace = true)
    (hcond : ¬(p ≠ [] ∧ elig = true ∧ isUpperDigit c = true)) :
    sentAux a p elig (c :: rest) = sentAux (c :: (p ++ a)) [] false rest := by
  simp only [sentAux]
  rw [if_neg hc, if_neg hcond]

theorem sentAux_step_split (a p : Str) (elig : Bool) (c : Char) (rest : Str)
    (hc : ¬c.isWhitespace = true)
    (hcond : p ≠ [] ∧ elig = true ∧ isUpperDigit c = true) :
    sentAux a p elig (c :: rest) = a.reverse :: sentAux [c] [] false rest := by
  simp only [sentAux]
  rw [if_neg hc, if_pos hcond]

theorem sentAux_step_ws_start_cons (x : Char) (xs : Str) (elig : Bool) (c : Char)
    (rest : Str) (hc : c.isWhitespace = true) :
    sentAux (x :: xs) [] elig (c :: rest) = sentAux (x :: xs) [c] (isSentPunct x) rest := by
  simp only [sentAux]
  rw [if_pos hc]
  simp only [if_true]

theorem sentAux_step_ws_cont (a p : Str) (elig : Bool) (c : Char) (rest : Str)
    (hc : c.isWhitespace = true) (hp : ¬p = []) :
    sentAux a p elig (c :: rest) = sentAux a (c :: p) elig rest := by
  simp only [sentAux]
  rw [if_pos hc, if_neg hp]

theorem wcAux_cons_ws (b : Bool) (c : Char) (cs : Str) (hc : c.isWhitespace = true) :
    wcAux b (c :: cs) = wcAux false cs := by
  simp only [wcAux]
  rw [if_pos hc]

theorem wcAux_cons_nonws (b : Bool) (c : Char) (cs : Str) (hc : ¬c.isWhitespace = true) :
    wcAux b (c :: cs) = (if b then 0 else 1) + wcAux true cs := by
  simp only [wcAux]
  rw [if_neg hc]

theorem splitSentences_c2body : splitSentences c2body = [str "Q.", qRep 499] := by
  show sentAux [] [] false ('Q' :: '.' :: '\n' :: '\n' :: qRep 499) = _
  rw [sentAux_step_nonws [] [] false 'Q' _ (by decide) (fun h => h.1 rfl)]
  rw [sentAux_step_nonws _ [] false '.' _ (by decide) (fun h => h.1 rfl)]
  rw [sentAux_step_ws_start_cons '.' _ false '\n' _ (by decide)]
  rw [sentAux_step_ws_cont _ _ _ '\n' _ (by decide) (by decide)]
  rw [show qRep 499 = 'Q' :: ' ' :: qRep 498 from rfl]
  rw [sentAux_step_split _ _ _ 'Q' _ (by decide) ⟨by decide, by decide, by decide⟩]
  rw [sentAux_step_ws_start_cons 'Q' [] false ' ' _ (by decide)]
  rw [show isSentPunct 'Q' = false from rfl]
  rw [sentAux_qRep 498 ['Q'] [' ']]
  simp only [List.reverse_cons, List.reverse_nil, List.nil_append, List.append_assoc,
    List.cons_append, List.singleton_append, List.append_nil]
  rw [show ('Q' :: ' ' :: qRep 498 : Str) = qRep 499 from rfl]
  rfl

theorem wordCount_c2body : wordCount c2body = 501 := by
  show wcAux false ('Q' :: '.' :: '\n' :: '\n' :: qRep 499) = 501
  rw [wcAux_cons_nonws false 'Q' _ (by decide)]
  rw [wcAux_cons_nonws true '.' _ (by decide)]
  rw [wcAux_cons_ws true '\n' _ (by decide)]
  rw [wcAux_cons_ws false '\n' _ (by decide)]
  have h2 := wordCount_qRep 499
  unfold wordCount at h2
  rw [h2]
  norm_num

theorem mem_of_head?_eq {α : Type} (l : List α) (a : α) (h : l.head? = some a) :
    a ∈ l := by
  cases l with
  | nil => simp at h
  | cons c cs =>
      simp only [List.head?] at h
      cases h
      exact List.mem_cons_self _ _

theorem mem_of_mem_dropWhile (p : Char → Bool) :
    ∀ (l : Str) (c : Char), c ∈ l.dropWhile p → c ∈ l
  | [], c, h => h
  | x :: xs, c, h => by
      rw [List.dropWhile_cons] at h
      by_cases hx : p x = true
      · rw [if_pos hx] at h
        exact List.mem_cons_of_mem x (mem_of_mem_dropWhile p xs c h)
      · rw [if_neg hx] at h
        exact h

theorem c2charOK_c2text : ∀ c ∈ c2text, c2charOK c := by
  intro c hc
  rw [show c2text = ['Q', 'a', ' ', '|', ' ', 'Q', 'z', '\n', '\n', 'Q', '.', '\n', '\n']
      ++ qRep 499 from rfl, List.mem_append] at hc
  rcases hc with h | h
  · fin_cases h <;> simp [c2charOK]
  · rcases chars_qRep 499 c h with rfl | rfl <;> simp [c2charOK]

theorem parseNumAt_none_of_head (s : Str)
    (h : ∀ c, s.head? = some c → c.isDigit = false) : parseNumAt s = none := by
  cases s with
  | nil => rfl
  | cons c cs =>
      have hc : c.isDigit = false := h c rfl
      simp [parseNumAt, takeDigits, hc]

theorem charOK_not_digit (c : Char) (h : c2charOK c) : c.isDigit = false := by
  rcases h with rfl | rfl | rfl | rfl | rfl | rfl | rfl | rfl <;> rfl

theorem matchNumMM_none_of_charOK (s : Str) (h : ∀ c ∈ s, c2charOK c) :
    matchNumMM s = none := by
  unfold matchNumMM
  rw [parseNumAt_none_of_head (skipWs s) fun c hc =>
    charOK_not_digit c (h c (mem_of_mem_dropWhile _ s c (mem_of_head?_eq _ c hc)))]
  rfl

theorem matchRangeAt_none_of_charOK (s : Str) (h : ∀ c ∈ s, c2charOK c) :
    matchRangeAt s = none := by
  unfold matchRangeAt
  rw [parseNumAt_none_of_head s fun c hc =>
    charOK_not_digit c (h c (mem_of_head?_eq _ c hc))]
  rfl

theorem matchGteAt_none_of_charOK (s : Str) (h : ∀ c ∈ s, c2charOK c) :
    matchGteAt s = none := by
  cases s with
  | nil => rfl
  | cons c cs =>
      rcases h c (List.mem_cons_self _ _) with rfl | rfl | rfl | rfl | rfl | rfl | rfl | rfl <;> rfl

theorem matchLteAt_none_of_charOK (s : Str) (h : ∀ c ∈ s, c2charOK c) :
    matchLteAt s = none := by
  cases s with
  | nil => rfl
  | cons c cs =>
      rcases h c (List.mem_cons_self _ _) with rfl | rfl | rfl | rfl | rfl | rfl | rfl | rfl <;> rfl

theorem matchLtAt_none_of_charOK (s : Str) (h : ∀ c ∈ s, c2charOK c) :
    matchLtAt s = none := by
  cases s with
  | nil => rfl
  | cons c cs =>
      rcases h c (List.mem_cons_self _ _) with rfl | rfl | rfl | rfl | rfl | rfl | rfl | rfl <;> rfl

theorem matchGtAt_none_of_charOK (s : Str) (h : ∀ c ∈ s, c2charOK c) :
    matchGtAt s = none := by
  cases s with
  | nil => rfl
  | cons c cs =>
      rcases h c (List.mem_cons_self _ _) with rfl | rfl | rfl | rfl | rfl | rfl | rfl | rfl <;> rfl

theorem searchPat_none_of_charOK (m : Str → Option β)
    (hm : ∀ s : Str, (∀ c ∈ s, c2charOK c) → m s = none) :
    ∀ t : Str, (∀ c ∈ t, c2charOK c) → searchPat m t = none
  | [], h => by
      simp only [searchPat]
      exact hm [] h
  | c :: t, h => by
      simp only [searchPat]
      rw [hm (c :: t) h,
        searchPat_none_of_charOK m hm t fun d hd => h d (List.mem_cons_of_mem c hd)]

theorem extractSizeRange_c2text : extractSizeRange c2text = (none, none) := by
  unfold extractSizeRange
  rw [searchPat_none_of_charOK matchRangeAt matchRangeAt_none_of_charOK c2text c2charOK_c2text]
  rw [searchPat_none_of_charOK matchGteAt matchGteAt_none_of_charOK c2text c2charOK_c2text]
  rw [searchPat_none_of_charOK matchLteAt matchLteAt_none_of_charOK c2text c2charOK_c2text]
  rw [searchPat_none_of_charOK matchLtAt matchLtAt_none_of_charOK c2text c2charOK_c2text]
  rw [searchPat_none_of_charOK matchGtAt matchGtAt_none_of_charOK c2text c2charOK_c2text]
  rw [searchPat_none_of_charOK matchSingleAt matchNumMM_none_of_charOK c2text c2charOK_c2text]

theorem strContains_false_of_first (n0 : Char) (ns : Str) :
    ∀ hay : Str, (∀ c ∈ hay, c ≠ n0) → strContains hay (n0 :: ns) = false
  | [], _ => rfl
  | c :: cs, h => by
      simp only [strContains, strHasPrefix]
      rw [decide_eq_false (h c (List.mem_cons_self _ _))]
      simp only [Bool.false_and, Bool.false_or]
      exact strContains_false_of_first n0 ns cs fun d hd => h d (List.mem_cons_of_mem c hd)

theorem mem_lower_c2text (c : Char) (hc : c ∈ lowerStr c2text) :
    c = 'q' ∨ c = 'a' ∨ c = 'z' ∨ c = ' ' ∨ c = '|' ∨ c = '\n' ∨ c = '.' ∨ c = '#' := by
  rcases List.mem_map.mp hc with ⟨c0, hc0, rfl⟩
  rcases c2charOK_c2text c0 hc0 with rfl | rfl | rfl | rfl | rfl | rfl | rfl | rfl <;> simp

theorem inferRiskLevel_c2text : inferRiskLevel c2text = none := by
  unfold inferRiskLevel
  dsimp only
  rw [show str "high risk" = 'h' :: str "igh risk" from rfl,
    strContains_false_of_first 'h' _ (lowerStr c2text) fun c hc => by
      rcases mem_lower_c2text c hc with rfl | rfl | rfl | rfl | rfl | rfl | rfl | rfl <;> decide]
  rw [show str "low risk" = 'l' :: str "ow risk" from rfl,
    strContains_false_of_first 'l' _ (lowerStr c2text) fun c hc => by
      rcases mem_lower_c2text c hc with rfl | rfl | rfl | rfl | rfl | rfl | rfl | rfl <;> decide]
  rw [show str "intermediate risk" = 'i' :: str "ntermediate risk" from rfl,
    strContains_false_of_first 'i' _ (lowerStr c2text) fun c hc => by
      rcases mem_lower_c2text c hc with rfl | rfl | rfl | rfl | rfl | rfl | rfl | rfl <;> decide]
  rfl

theorem matchLitCI_none_of_head (l0 : Char) (ls : Str) (s : Str)
    (h : ∀ c, s.head? = some c → ¬Char.toLower c = l0) : matchLitCI (l0 :: ls) s = none := by
  cases s with
  | nil => rfl
  | cons c cs =>
      simp only [matchLitCI]
      rw [if_neg (h c rfl)]

theorem kwSearchAux_false_of_charOK (m : Str → Option Str)
    (hm : ∀ s : Str, (∀ c ∈ s, c2charOK c) → m s = none) :
    ∀ (t : Str) (prev : Option Char), (∀ c ∈ t, c2charOK c) → kwSearchAux m prev t = false
  | [], _, _ => rfl
  | c :: t, prev, h => by
      simp only [kwSearchAux]
      rw [hm (c :: t) h,
        kwSearchAux_false_of_charOK m hm t (some c) fun d hd => h d (List.mem_cons_of_mem c hd)]
      simp

theorem charOK_toLower_ne (c : Char) (h : c2charOK c) :
    Char.toLower c ≠ 'p' ∧ Char.toLower c ≠ 'm' ∧ Char.toLower c ≠ 'l' ∧
    Char.toLower c ≠ 'c' ∧ Char.toLower c ≠ 'u' ∧ Char.toLower c ≠ 'b' := by
  rcases h with rfl | rfl | rfl | rfl | rfl | rfl | rfl | rfl <;> exact (by decide)

theorem inferModality_c2text : inferModality c2text = none := by
  have hpet : ∀ s : Str, (∀ c ∈ s, c2charOK c) → matchLitCI (str "pet") s = none :=
    fun s hs => matchLitCI_none_of_head 'p' _ s fun c hc =>
      (charOK_toLower_ne c (hs c (mem_of_head?_eq _ c hc))).1
  have hpetct : ∀ s : Str, (∀ c ∈ s, c2charOK c) → matchPetCt s = none := by
    intro s hs
    unfold matchPetCt
    rw [hpet s hs]
    rfl
  have hmri : ∀ s : Str, (∀ c ∈ s, c2charOK c) → matchLitCI (str "mri") s = none :=
    fun s hs => matchLitCI_none_of_head 'm' _ s fun c hc =>
      (charOK_toLower_ne c (hs c (mem_of_head?_eq _ c hc))).2.1
  have hldct : ∀ s : Str, (∀ c ∈ s, c2charOK c) → matchLitCI (str "ldct") s = none :=
    fun s hs => matchLitCI_none_of_head 'l' _ s fun c hc =>
      (charOK_toLower_ne c (hs c (mem_of_head?_eq _ c hc))).2.2.1
  have hct : ∀ s : Str, (∀ c ∈ s, c2charOK c) → matchLitCI (str "ct") s = none :=
    fun s hs => matchLitCI_none_of_head 'c' _ s fun c hc =>
      (charOK_toLower_ne c (hs c (mem_of_head?_eq _ c hc))).2.2.2.1
  have hus : ∀ s : Str, (∀ c ∈ s, c2charOK c) → matchLitCI (str "ultrasound") s = none :=
    fun s hs => matchLitCI_none_of_head 'u' _ s fun c hc =>
      (charOK_toLower_ne c (hs c (mem_of_head?_eq _ c hc))).2.2.2.2.1
  have hceus : ∀ s : Str, (∀ c ∈ s, c2charOK c) → matchLitCI (str "ceus") s = none :=
    fun s hs => matchLitCI_none_of_head 'c' _ s fun c hc =>
      (charOK_toLower_ne c (hs c (mem_of_head?_eq _ c hc))).2.2.2.1
  have hbio : ∀ s : Str, (∀ c ∈ s, c2charOK c) → matchLitCI (str "biopsy") s = none :=
    fun s hs => matchLitCI_none_of_head 'b' _ s fun c hc =>
      (charOK_toLower_ne c (hs c (mem_of_head?_eq _ c hc))).2.2.2.2.2
  unfold inferModality kwSearch
  rw [kwSearchAux_false_of_charOK matchPetCt hpetct c2text none c2charOK_c2text]
  rw [kwSearchAux_false_of_charOK _ hpet c2text none c2charOK_c2text]
  rw [kwSearchAux_false_of_charOK _ hmri c2text none c2charOK_c2text]
  rw [kwSearchAux_false_of_charOK _ hldct c2text none c2charOK_c2text]
  rw [kwSearchAux_false_of_charOK _ hct c2text none c2charOK_c2text]
  rw [kwSearchAux_false_of_charOK _ hus c2text none c2charOK_c2text]
  rw [kwSearchAux_false_of_charOK _ hceus c2text none c2charOK_c2text]
  rw [kwSearchAux_false_of_charOK _ hbio c2text none c2charOK_c2text]
  rfl

theorem getLast?_append_right (a b : Str) (h : b ≠ []) :
    (a ++ b).getLast? = b.getLast? := by
  rw [← head?_reverse_eq_getLast?, List.reverse_append,
    head?_append_left _ _ (by simpa using h), head?_reverse_eq_getLast?]

theorem c2body_ne_nil : c2body ≠ [] := by
  rw [show c2body = 'Q' :: (str ".\n\n" ++ qRep 499) from rfl]
  exact List.cons_ne_nil _ _

theorem c2body_getLast? : c2body.getLast? = some 'Q' := by
  rw [show c2body = str "Q.\n\n" ++ qRep 499 from rfl,
    getLast?_append_right _ _ (qRep_ne_nil 499), getLast?_qRep]

theorem pyStrip_c2body : pyStrip c2body = c2body := by
  apply pyStrip_eq_self
  · intro c hc
    rw [show c2body.head? = some 'Q' from rfl] at hc
    cases hc
    decide
  · intro c hc
    rw [c2body_getLast?] at hc
    cases hc
    decide

theorem c2text_getLast? : c2text.getLast? = some 'Q' := by
  rw [show c2text = c2title ++ (str "\n\n" ++ c2body) from rfl,
    getLast?_append_right _ _ (by
      rw [show (str "\n\n" ++ c2body) = '\n' :: (str "\n" ++ c2body) from rfl]
      exact List.cons_ne_nil _ _),
    getLast?_append_right _ _ c2body_ne_nil, c2body_getLast?]

theorem pyStrip_c2text : pyStrip c2text = c2text := by
  apply pyStrip_eq_self
  · intro c hc
    rw [show c2text.head? = some 'Q' from rfl] at hc
    cases hc
    decide
  · intro c hc
    rw [c2text_getLast?] at hc
    cases hc
    decide

theorem splitNl_cons_other (c : Char) (cs : Str) (h : ¬c = '\n') (l : Str)
    (rest : List Str) (hcs : splitNl cs = l :: rest) :
    splitNl (c :: cs) = (c :: l) :: rest := by
  unfold splitNl
  rw [if_neg h, hcs]

theorem splitNl_line (line : Str) (h : ∀ c ∈ line, ¬c = '\n') (s : Str) :
    splitNl (line ++ '\n' :: s) = line :: splitNl s := by
  induction line with
  | nil =>
      show splitNl ('\n' :: s) = [] :: splitNl s
      conv_lhs => rw [splitNl]
      rw [if_pos rfl]
  | cons c cs ih =>
      exact splitNl_cons_other c _ (h c (List.mem_cons_self _ _)) cs (splitNl s)
        (ih fun d hd => h d (List.mem_cons_of_mem c hd))

theorem splitNl_c2content :
    splitNl c2content = [str "## Qa", str "Q.", str "## Qz", qRep 499] := by
  rw [show c2content
      = str "## Qa" ++ '\n' :: (str "Q." ++ '\n' :: (str "## Qz" ++ '\n' :: qRep 499)) from rfl]
  rw [splitNl_line _ (by decide) _, splitNl_line _ (by decide) _,
    splitNl_line _ (by decide) _, splitNl_qRep]

theorem headingOf_qRep (n : Nat) : headingOf (qRep n) = none := by
  cases n <;> rfl

theorem groupAux_cons_some (line : Str) (rest : List Str) (h : Nat × Str)
    (hl : headingOf line = some h) :
    groupAux (line :: rest) = ([], (h, (groupAux rest).1) :: (groupAux rest).2) := by
  conv_lhs => rw [groupAux]
  rw [hl]

theorem groupAux_cons_none (line : Str) (rest : List Str)
    (hl : headingOf line = none) :
    groupAux (line :: rest) = (line :: (groupAux rest).1, (groupAux rest).2) := by
  conv_lhs => rw [groupAux]
  rw [hl]

theorem groupAux_c2 :
    groupAux [str "## Qa", str "Q.", str "## Qz", qRep 499]
      = ([], [((2, str "Qa"), [str "Q."]), ((2, str "Qz"), [qRep 499])]) := by
  have h4 : groupAux [qRep 499] = ([qRep 499], []) := by
    rw [groupAux_cons_none (qRep 499) [] (headingOf_qRep 499)]
    rfl
  have h3 : groupAux [str "## Qz", qRep 499] = ([], [((2, str "Qz"), [qRep 499])]) := by
    rw [groupAux_cons_some _ _ _ (show headingOf (str "## Qz") = some (2, str "Qz") from rfl), h4]
  have h2 : groupAux [str "Q.", str "## Qz", qRep 499]
      = ([str "Q."], [((2, str "Qz"), [qRep 499])]) := by
    rw [groupAux_cons_none _ _ (show headingOf (str "Q.") = none from rfl), h3]
  rw [groupAux_cons_some _ _ _ (show headingOf (str "## Qa") = some (2, str "Qa") from rfl), h2]

theorem filterMap_single {α β : Type} (f : α → Option β) (a : α) (b : β)
    (h : f a = some b) : List.filterMap f [a] = [b] := by
  rw [List.filterMap_cons, h]
  rfl

theorem filterMap_pair {α β : Type} (f : α → Option β) (a b : α) (x y : β)
    (ha : f a = some x) (hb : f b = some y) : List.filterMap f [a, b] = [x, y] := by
  rw [List.filterMap_cons, ha]
  dsimp only
  rw [List.filterMap_cons, hb]
  rfl

theorem flatMap_pair {α β : Type} (f : α → List β) (a b : α) (la lb : List β)
    (ha : f a = la) (hb : f b = lb) : [a, b].flatMap f = la ++ lb := by
  rw [show [a, b].flatMap f = f a ++ (f b ++ []) from rfl, ha, hb, List.append_nil]

theorem parseSections_c2 :
    parseSections c2content = [⟨str "Qa", 2, str "Q."⟩, ⟨str "Qz", 2, qRep 499⟩] := by
  unfold parseSections
  rw [splitNl_c2content, groupAux_c2]
  dsimp only
  rw [if_neg (List.cons_ne_nil _ _)]
  rw [if_pos (show pyStrip (joinSep (str "\n") []) = [] from rfl)]
  rw [List.nil_append]
  refine filterMap_pair _ _ _ _ _ rfl ?_
  dsimp only
  rw [show joinSep (str "\n") [qRep 499] = qRep 499 from rfl, pyStrip_qRep]
  rw [if_neg (qRep_ne_nil 499)]
  rfl

theorem paragraphs_qRep (n : Nat) :
    (((splitParagraphs (qRep n)).map pyStrip).filter fun p => p ≠ []) = [qRep n] := by
  rw [splitParagraphs_qRep]
  rw [show List.map pyStrip [qRep n] = [qRep n] by
    rw [List.map_cons, pyStrip_qRep, List.map_nil]]
  rw [List.filter_cons]
  rw [if_pos (by simpa using qRep_ne_nil n)]
  rw [List.filter_nil]

theorem paraChunks_qRep (n : Nat) : paraChunks (qRep n) = [qRep n] := by
  unfold paraChunks
  dsimp only
  rw [paragraphs_qRep n]
  unfold paraLoop
  dsimp only
  rw [if_neg (show ¬(([] : List Str) ≠ []
      ∧ wordCount (pyStrip (joinSep (str "\n\n") ([] ++ [qRep n]))) > MAX_WORDS)
    from fun hand => hand.1 rfl)]
  simp only [List.nil_append]
  unfold paraLoop
  rw [if_neg (List.cons_ne_nil _ _)]
  rw [show joinSep (str "\n\n") [qRep n] = qRep n from rfl, pyStrip_qRep]
  rfl

theorem normalizeChunk_qRep499 : normalizeChunk (qRep 499) = [qRep 499] := by
  unfold normalizeChunk
  rw [if_pos (by rw [wordCount_qRep]; decide)]

theorem splitLargeSection_qRep499 : splitLargeSection (qRep 499) = [qRep 499] := by
  unfold splitLargeSection
  dsimp only
  rw [paragraphs_qRep 499]
  rw [if_neg (List.cons_ne_nil _ _)]
  rw [paraChunks_qRep 499]
  rw [show ([qRep 499].flatMap normalizeChunk) = normalizeChunk (qRep 499) ++ [] from rfl,
    List.append_nil]
  rw [normalizeChunk_qRep499]
  rw [List.filter_cons]
  rw [if_pos (by simpa using qRep_ne_nil 499)]
  rw [List.filter_nil]

theorem processSection_qa :
    processSection ⟨str "Qa", 2, str "Q."⟩ = [⟨str "Qa", str "Q."⟩] := by
  rfl

theorem processSection_qz :
    processSection ⟨str "Qz", 2, qRep 499⟩ = [⟨str "Qz", qRep 499⟩] := by
  unfold processSection
  dsimp only
  rw [pyStrip_qRep]
  rw [if_neg (qRep_ne_nil 499)]
  rw [splitLargeSection_qRep499]
  rw [show ([qRep 499].enum) = [(0, qRep 499)] from rfl]
  apply filterMap_single
  unfold partOf
  dsimp only
  rw [pyStrip_qRep]
  rw [if_neg (qRep_ne_nil 499)]
  rfl

theorem merge_c2 :
    mergeSmallSections [⟨str "Qa", str "Q."⟩, ⟨str "Qz", qRep 499⟩]
      = [⟨c2title, c2body⟩] := by
  unfold mergeSmallSections
  unfold mergeLoop
  dsimp only
  rw [if_pos (show wordCount (str "Q.") < MIN_WORDS by decide)]
  unfold mergeLoop
  dsimp only
  rw [if_pos (show wordCount (str "Q.") < TARGET_MIN_WORDS by decide)]
  unfold mergeLoop
  unfold appendIntoLast
  unfold combineSections
  dsimp only
  rw [show str "Q." ++ str "\n\n" ++ qRep 499 = c2body from rfl, pyStrip_c2body]
  rfl

theorem chunkOfSection_c2 :
    chunkOfSection (str "SRC") ⟨c2title, c2body⟩ = some c2chunk := by
  unfold chunkOfSection
  dsimp only
  rw [pyStrip_c2body]
  rw [if_neg c2body_ne_nil]
  rw [show c2title ++ str "\n\n" ++ c2body = c2text from rfl, pyStrip_c2text]
  rw [extractSizeRange_c2text, inferRiskLevel_c2text, inferModality_c2text]
  rfl

theorem searchPat_some {β : Type} (m : Str → Option β) :
    ∀ (t : Str) (v : β), searchPat m t = some v → ∃ s : Str, m s = some v
  | [], v, h => ⟨[], h⟩
  | c :: t, v, h => by
      simp only [searchPat] at h
      cases hm : m (c :: t) with
      | some r =>
          rw [hm] at h
          exact ⟨c :: t, hm.trans h⟩
      | none =>
          rw [hm] at h
          exact searchPat_some m t v h

theorem parseNumAt_nonneg (s : Str) (q : ℚ) (r : Str)
    (h : parseNumAt s = some (q, r)) : 0 ≤ q := by
  unfold parseNumAt at h
  by_cases hd : (takeDigits s).1 = []
  · rw [if_pos hd] at h
    exact absurd h (by simp)
  · rw [if_neg hd] at h
    dsimp only at h
    split at h
    · split at h
      · injection h with h1
        injection h1 with hq hr
        rw [← hq]
        positivity
      · injection h with h1
        injection h1 with hq hr
        rw [← hq]
        positivity
    · injection h with h1
      injection h1 with hq hr
      rw [← hq]
      positivity

theorem matchNumMM_nonneg (s : Str) (v : ℚ) (h : matchNumMM s = some v) : 0 ≤ v := by
  unfold matchNumMM at h
  cases hp : parseNumAt (skipWs s) with
  | none =>
      rw [hp] at h
      exact absurd h (by simp)
  | some a =>
      rw [hp] at h
      replace h : (if matchMM (skipWs a.2) = true then some a.1 else none) = some v := h
      split at h
      · injection h with hv
        rw [← hv]
        exact parseNumAt_nonneg (skipWs s) a.1 a.2 (by rw [hp])
      · exact absurd h (by simp)

theorem matchLteAt_nonneg (s : Str) (v : ℚ) (h : matchLteAt s = some v) : 0 ≤ v := by
  unfold matchLteAt at h
  split at h
  · exact matchNumMM_nonneg _ v h
  · exact matchNumMM_nonneg _ v h
  · exact absurd h (by simp)

theorem matchLtAt_nonneg (s : Str) (v : ℚ) (h : matchLtAt s = some v) : 0 ≤ v := by
  unfold matchLtAt at h
  split at h
  · exact matchNumMM_nonneg _ v h
  · exact absurd h (by simp)

theorem normalizeRisk_cases (v : Option Str) :
    normalizeRisk v = none ∨ normalizeRisk v = some (str "high")
      ∨ normalizeRisk v = some (str "intermediate")
      ∨ normalizeRisk v = some (str "low") := by
  cases v with
  | none => exact Or.inl rfl
  | some s =>
      unfold normalizeRisk
      dsimp only
      by_cases h0 : s = []
      · rw [if_pos h0]
        exact Or.inl rfl
      · rw [if_neg h0]
        by_cases h1 : strContains (lowerStr (pyStrip s)) (str "high") = true
        · rw [if_pos h1]
          exact Or.inr (Or.inl rfl)
        · rw [if_neg h1]
          by_cases h2 : strContains (lowerStr (pyStrip s)) (str "intermediate") = true
          · rw [if_pos h2]
            exact Or.inr (Or.inr (Or.inl rfl))
          · rw [if_neg h2]
            by_cases h3 : strContains (lowerStr (pyStrip s)) (str "low") = true
            · rw [if_pos h3]
              exact Or.inr (Or.inr (Or.inr rfl))
            · rw [if_neg h3]
              exact Or.inl rfl

theorem riskCondEq (cr rl : Str) (hrl : rl ≠ []) :
    (cr ≠ [] ∧ lowerStr cr = rl) ↔ lowerStr cr = rl :=
  ⟨And.right, fun x =>
    ⟨fun hnil => hrl (by rw [hnil] at x; exact x.symm), x⟩⟩

theorem joinSep_suffix (sep : Str) :
    ∀ (l : List Str) (x : Str), ∃ pre : Str, joinSep sep (l ++ [x]) = pre ++ x
  | [], x => ⟨[], rfl⟩
  | [a], x => ⟨a ++ sep, by simp [joinSep, List.append_assoc]⟩
  | a :: b :: l, x => by
      obtain ⟨pre, hp⟩ := joinSep_suffix sep (b :: l) x
      refine ⟨a ++ sep ++ pre, ?_⟩
      rw [show ((a :: b :: l) ++ [x]) = a :: ((b :: l) ++ [x]) from rfl]
      rw [show joinSep sep (a :: ((b :: l) ++ [x]))
          = a ++ sep ++ joinSep sep ((b :: l) ++ [x]) from rfl]
      rw [hp, List.append_assoc, List.append_assoc, List.append_assoc]

theorem adjustScore_eq_spec (f : Finding) (d : RetrievedDocument) :
    adjustScore (coerceFloat f.size_mm) (normalizeRisk f.risk_level) d
      = specAdjustedScore f d := by
  unfold adjustScore specAdjustedScore coerceFloat
  dsimp only
  rcases normalizeRisk_cases f.risk_level with h | h | h | h <;> rw [h]
  · rw [if_neg (show ¬truthyS (none : Option Str) = true from by decide)]
    cases f.size_mm <;> cases d.metadata.size_min_mm <;> cases d.metadata.size_max_mm <;>
      cases d.metadata.risk_level <;> (try dsimp only) <;> (try split_ifs) <;> ring
  · rw [if_pos (show truthyS (some (str "high")) = true from rfl)]
    cases hcr : d.metadata.risk_level with
    | none =>
        cases f.size_mm <;> cases d.metadata.size_min_mm <;> cases d.metadata.size_max_mm <;>
          (try dsimp only) <;> (try split_ifs) <;> ring
    | some cr =>
        dsimp only
        simp only [Option.getD_some, riskCondEq cr (str "high") (by decide)]
        cases f.size_mm <;> cases d.metadata.size_min_mm <;> cases d.metadata.size_max_mm <;>
          (try dsimp only) <;> (try split_ifs) <;> ring
  · rw [if_pos (show truthyS (some (str "intermediate")) = true from rfl)]
    cases hcr : d.metadata.risk_level with
    | none =>
        cases f.size_mm <;> cases d.metadata.size_min_mm <;> cases d.metadata.size_max_mm <;>
          (try dsimp only) <;> (try split_ifs) <;> ring
    | some cr =>
        dsimp only
        simp only [Option.getD_some, riskCondEq cr (str "intermediate") (by decide)]
        cases f.size_mm <;> cases d.metadata.size_min_mm <;> cases d.metadata.size_max_mm <;>
          (try dsimp only) <;> (try split_ifs) <;> ring
  · rw [if_pos (show truthyS (some (str "low")) = true from rfl)]
    cases hcr : d.metadata.risk_level with
    | none =>
        cases f.size_mm <;> cases d.metadata.size_min_mm <;> cases d.metadata.size_max_mm <;>
          (try dsimp only) <;> (try split_ifs) <;> ring
    | some cr =>
        dsimp only
        simp only [Option.getD_some, riskCondEq cr (str "low") (by decide)]
        cases f.size_mm <;> cases d.metadata.size_min_mm <;> cases d.metadata.size_max_mm <;>
          (try dsimp only) <;> (try split_ifs) <;> ring

theorem chunkGuideline_c2 : chunkGuideline c2content (str "SRC") = [c2chunk] := by
  unfold chunkGuideline
  rw [parseSections_c2]
  dsimp only
  rw [if_neg (List.cons_ne_nil _ _)]
  rw [flatMap_pair processSection _ _ _ _ processSection_qa processSection_qz]
  rw [List.singleton_append]
  rw [merge_c2]
  exact filterMap_single _ _ _ chunkOfSection_c2

/-! ## Claim theorems -/

/-- C1 (amended): in every hybrid retrieval the fused score of each returned
document is the raw retrieval score of the first hit seen for that document
(semantic list first) plus the sum of its reciprocal-rank contributions
(`0.7 * 1/(60+r)` per semantic rank `r`, `0.3 * 1/(60+r)` per lexical rank
`r`, both lists counted), and the fused candidates are sorted descending by
this accumulated score.  The pure-RRF reading of the original claim is
refuted by `hybridSearch_not_pure_rrf`. -/
theorem hybridSearch_fused_characterization (sem kw : List Hit) (top_k : Nat) :
    (∀ doc ∈ hybridSearch sem kw top_k,
        doc.score = seedScore sem kw doc.id
          + contribSum (7 / 10) 1 sem doc.id + contribSum (3 / 10) 1 kw doc.id) ∧
      (hybridSearch sem kw top_k).Pairwise fun a b => b.score ≤ a.score :=
  ⟨hybridSearch_score_eq sem kw top_k, hybridSearch_sorted sem kw top_k⟩

/-- C1 counterexample: a document whose raw semantic score is `1` comes out
of `hybrid_search` with fused score `1 + 0.7/61`, not the bare
reciprocal-rank sum `0.7/61`: the `setdefault(doc_id, hit.copy())` seeds the
accumulator with the raw score carried by `_format_hits`. -/
theorem hybridSearch_not_pure_rrf :
    ∃ doc ∈ hybridSearch [hitA1] [] 5,
      doc.score ≠ contribSum (7 / 10) 1 [hitA1] doc.id
        + contribSum (3 / 10) 1 [] doc.id := by
  refine ⟨{ id := str "A", text := str "tA", metadata := {},
            score := 1 + 7 / 10 * (1 / (60 + ((1 : ℕ) : ℚ))) }, ?_, ?_⟩
  · exact List.mem_singleton.mpr rfl
  · show (1 : ℚ) + 7 / 10 * (1 / (60 + ((1 : ℕ) : ℚ)))
        ≠ contribSum (7 / 10) 1 [hitA1] (str "A") + contribSum (3 / 10) 1 [] (str "A")
    rw [show contribSum (7 / 10) 1 [hitA1] (str "A")
        = 7 / 10 * (1 / (60 + ((1 : ℕ) : ℚ))) + 0 from by
      unfold contribSum hitA1
      rw [if_pos rfl]
      rfl]
    rw [show contribSum (3 / 10) 1 ([] : List Hit) (str "A") = 0 from rfl]
    norm_num

/-- C2 (amended): the bound holds at the `_split_large_section` stage — every
split of a section body has at most `MAX_WORDS = 500` words unless it is (the
strip of) a single sentence of an oversized paragraph chunk that alone
exceeds 500 words.  The bound does not survive `_merge_small_sections`:
`chunkGuideline_overlong_chunk` exhibits a 501-word chunk all of whose
sentences are within the bound. -/
theorem splitLargeSection_word_bound (body : Str) :
    ∀ c ∈ splitLargeSection body,
      wordCount c ≤ MAX_WORDS ∨
        ∃ chunk ∈ paraChunks body, MAX_WORDS < wordCount chunk ∧
          ∃ s ∈ splitSentences chunk, c = pyStrip s ∧ MAX_WORDS < wordCount s :=
  splitLargeSection_bound body

/-- C2 witness: the bound theorem applied to the one-sentence body `Q.`. -/
theorem splitLargeSection_word_bound_witness :
    wordCount (str "Q.") ≤ MAX_WORDS ∨
      ∃ chunk ∈ paraChunks (str "Q."), MAX_WORDS < wordCount chunk ∧
        ∃ s ∈ splitSentences chunk, str "Q." = pyStrip s ∧ MAX_WORDS < wordCount s :=
  splitLargeSection_word_bound (str "Q.") (str "Q.") (by decide)

/-- C2 counterexample: `chunk_guideline` on a document with a 1-word section
followed by a 500-word section emits a single 501-word chunk (the merge
stage's buffer absorbs the second section unconditionally), although none of
the chunk's sentences exceeds 500 words. -/
theorem chunkGuideline_overlong_chunk :
    ∃ ch ∈ chunkGuideline c2content (str "SRC"),
      MAX_WORDS < wordCount ch.recommendation ∧
        ∀ s ∈ splitSentences ch.recommendation, wordCount s ≤ MAX_WORDS := by
  refine ⟨c2chunk, ?_, ?_, ?_⟩
  · rw [chunkGuideline_c2]
    exact List.mem_singleton.mpr rfl
  · show MAX_WORDS < wordCount c2chunk.recommendation
    rw [show c2chunk.recommendation = c2body from rfl, wordCount_c2body]
    decide
  · intro s hs
    rw [show c2chunk.recommendation = c2body from rfl, splitSentences_c2body] at hs
    rcases List.mem_cons.mp hs with rfl | hs1
    · decide
    · rw [List.mem_singleton.mp hs1, wordCount_qRep]
      decide

/-- C3 (amended): a candidate declaring `size_min_mm=5, size_max_mm=8`
scores exactly `base + 2.0` for a 6 mm finding; a candidate declaring
`size_min_mm=1, size_max_mm=3` scores exactly `base - 0.3` (the nearest
bound is 3, distance `3`, penalty `min(3/10, 1.5) = 0.3`), not the
`base - 0.2` of the original claim (refuted by
`rerank_out_of_range_penalty_value`). -/
theorem rerank_size_vectors (b : ℚ) :
    (rerankResults [docBase b 5 8] finding6).map RetrievedDocument.score = [b + 2] ∧
      (rerankResults [docBase b 1 3] finding6).map RetrievedDocument.score
        = [b - 3 / 10] := by
  constructor
  · rw [show (rerankResults [docBase b 5 8] finding6).map RetrievedDocument.score
        = [adjustScore (some 6) none (docBase b 5 8)] from rfl]
    unfold adjustScore docBase coerceFloat
    dsimp only
    rw [if_neg (show ¬truthyS (none : Option Str) = true from by decide)]
    rw [if_pos (show (5 : ℚ) ≤ 6 ∧ (6 : ℚ) ≤ 8 from by norm_num)]
  · rw [show (rerankResults [docBase b 1 3] finding6).map RetrievedDocument.score
        = [adjustScore (some 6) none (docBase b 1 3)] from rfl]
    unfold adjustScore docBase coerceFloat
    dsimp only
    rw [if_neg (show ¬truthyS (none : Option Str) = true from by decide)]
    rw [if_neg (show ¬((1 : ℚ) ≤ 6 ∧ (6 : ℚ) ≤ 3) from by norm_num)]
    rw [show min (min |(6 : ℚ) - 1| |(6 : ℚ) - 3| / 10) (3 / 2 : ℚ) = 3 / 10 from by
      norm_num]

/-- C3 counterexample: for `size_min_mm=1, size_max_mm=3`, finding size 6 and
base score `0`, `rerank_results` yields `-0.3`, and `-0.3 ≠ -0.2`: the
original claim's `base - 0.2` value is wrong (distance to the nearer bound
is 3, so the penalty is `3/10 = 0.3`). -/
theorem rerank_out_of_range_penalty_value :
    (rerankResults [docBase 0 1 3] finding6).map RetrievedDocument.score
        = [0 - 3 / 10] ∧
      (0 : ℚ) - 3 / 10 ≠ 0 - 2 / 10 := by
  constructor
  · rw [show (rerankResults [docBase 0 1 3] finding6).map RetrievedDocument.score
        = [adjustScore (some 6) none (docBase 0 1 3)] from rfl]
    unfold adjustScore docBase coerceFloat
    dsimp only
    rw [if_neg (show ¬truthyS (none : Option Str) = true from by decide)]
    rw [if_neg (show ¬((1 : ℚ) ≤ 6 ∧ (6 : ℚ) ≤ 3) from by norm_num)]
    rw [show min (min |(6 : ℚ) - 1| |(6 : ℚ) - 3| / 10) (3 / 2 : ℚ) = 3 / 10 from by
      norm_num]
  · norm_num

/-- C4 (amended): whenever `_extract_size_range` sets both bounds, either the
bounds are ordered (`min ≤ max`), or the upper bound is the open-ended
`999.0`, or the pair is verbatim the two captured numbers of the first
`range` match of the text — and that family copies the numbers in textual
order, so a reversed range such as `10-5 mm` violates `min ≤ max`
(counterexample `extractSizeRange_reversed_range`). -/
theorem extractSizeRange_order_cases (text : Str) (a b : ℚ)
    (h : extractSizeRange text = (some a, some b)) :
    (∃ xy : ℚ × ℚ, searchPat matchRangeAt text = some xy ∧ a = xy.1 ∧ b = xy.2)
      ∨ a ≤ b ∨ b = OPEN_ENDED_MAX := by
  unfold extractSizeRange at h
  cases h1 : searchPat matchRangeAt text with
  | some se =>
      rw [h1] at h
      injection h with ha hb
      exact Or.inl ⟨se, rfl, (Option.some.inj ha).symm, (Option.some.inj hb).symm⟩
  | none =>
  rw [h1] at h
  cases h2 : searchPat matchGteAt text with
  | some v =>
      rw [h2] at h
      injection h with ha hb
      exact Or.inr (Or.inr (Option.some.inj hb).symm)
  | none =>
  rw [h2] at h
  cases h3 : searchPat matchLteAt text with
  | some v =>
      rw [h3] at h
      injection h with ha hb
      refine Or.inr (Or.inl ?_)
      rw [← Option.some.inj ha, ← Option.some.inj hb]
      obtain ⟨s, hs⟩ := searchPat_some matchLteAt text v h3
      exact matchLteAt_nonneg s v hs
  | none =>
  rw [h3] at h
  cases h4 : searchPat matchLtAt text with
  | some v =>
      rw [h4] at h
      injection h with ha hb
      refine Or.inr (Or.inl ?_)
      rw [← Option.some.inj ha, ← Option.some.inj hb]
      obtain ⟨s, hs⟩ := searchPat_some matchLtAt text v h4
      exact matchLtAt_nonneg s v hs
  | none =>
  rw [h4] at h
  cases h5 : searchPat matchGtAt text with
  | some v =>
      rw [h5] at h
      injection h with ha hb
      exact Or.inr (Or.inr (Option.some.inj hb).symm)
  | none =>
  rw [h5] at h
  cases h6 : searchPat matchSingleAt text with
  | some v =>
      rw [h6] at h
      injection h with ha hb
      refine Or.inr (Or.inl ?_)
      rw [← Option.some.inj ha, ← Option.some.inj hb]
  | none =>
      rw [h6] at h
      injection h with ha hb
      exact absurd ha (by simp)

/-- C4 witness: the order theorem applied to the well-formed range
`5-8 mm`. -/
theorem extractSizeRange_order_cases_witness :
    (∃ xy : ℚ × ℚ, searchPat matchRangeAt (str "5-8 mm") = some xy
        ∧ (5 : ℚ) = xy.1 ∧ (8 : ℚ) = xy.2)
      ∨ (5 : ℚ) ≤ 8 ∨ (8 : ℚ) = OPEN_ENDED_MAX :=
  extractSizeRange_order_cases (str "5-8 mm") 5 8 (by decide)

/-- C4 counterexample: the reversed range `10-5 mm` sets
`size_min_mm = 10 > 5 = size_max_mm`, breaking the invariant. -/
theorem extractSizeRange_reversed_range :
    extractSizeRange (str "10-5 mm") = (some 10, some 5) ∧ ¬(10 : ℚ) ≤ 5 := by
  constructor
  · decide
  · decide

/-- C5: the six size-pattern families are tried in the fixed precedence
range, `>=`, `<=`, `<`, `>`, bare `X mm`; the first family matching anywhere
in the text determines the result (range → the captured pair, `>=`/`>` →
`(X, 999.0)`, `<=`/`<` → `(0, X)`, bare → `(X, X)`), no match yields
`(none, none)`, and on a text containing both `≥6mm` and `6mm` the
inequality family wins over the bare-size family. -/
theorem extractSizeRange_precedence :
    (∀ text : Str,
      (∀ xy : ℚ × ℚ, searchPat matchRangeAt text = some xy →
          extractSizeRange text = (some xy.1, some xy.2)) ∧
      (∀ v : ℚ, searchPat matchRangeAt text = none →
          searchPat matchGteAt text = some v →
          extractSizeRange text = (some v, some OPEN_ENDED_MAX)) ∧
      (∀ v : ℚ, searchPat matchRangeAt text = none →
          searchPat matchGteAt text = none →
          searchPat matchLteAt text = some v →
          extractSizeRange text = (some 0, some v)) ∧
      (∀ v : ℚ, searchPat matchRangeAt text = none →
          searchPat matchGteAt text = none →
          searchPat matchLteAt text = none →
          searchPat matchLtAt text = some v →
          extractSizeRange text = (some 0, some v)) ∧
      (∀ v : ℚ, searchPat matchRangeAt text = none →
          searchPat matchGteAt text = none →
          searchPat matchLteAt text = none →
          searchPat matchLtAt text = none →
          searchPat matchGtAt text = some v →
          extractSizeRange text = (some v, some OPEN_ENDED_MAX)) ∧
      (∀ v : ℚ, searchPat matchRangeAt text = none →
          searchPat matchGteAt text = none →
          searchPat matchLteAt text = none →
          searchPat matchLtAt text = none →
          searchPat matchGtAt text = none →
          searchPat matchSingleAt text = some v →
          extractSizeRange text = (some v, some v)) ∧
      (searchPat matchRangeAt text = none →
          searchPat matchGteAt text = none →
          searchPat matchLteAt text = none →
          searchPat matchLtAt text = none →
          searchPat matchGtAt text = none →
          searchPat matchSingleAt text = none →
          extractSizeRange text = (none, none))) ∧
    extractSizeRange (str "≥6mm and 6mm") = (some 6, some OPEN_ENDED_MAX) := by
  constructor
  · intro text
    refine ⟨?_, ?_, ?_, ?_, ?_, ?_, ?_⟩
    · intro xy h1
      unfold extractSizeRange
      rw [h1]
    · intro v h1 h2
      unfold extractSizeRange
      rw [h1, h2]
    · intro v h1 h2 h3
      unfold extractSizeRange
      rw [h1, h2, h3]
    · intro v h1 h2 h3 h4
      unfold extractSizeRange
      rw [h1, h2, h3, h4]
    · intro v h1 h2 h3 h4 h5
      unfold extractSizeRange
      rw [h1, h2, h3, h4, h5]
    · intro v h1 h2 h3 h4 h5 h6
      unfold extractSizeRange
      rw [h1, h2, h3, h4, h5, h6]
    · intro h1 h2 h3 h4 h5 h6
      unfold extractSizeRange
      rw [h1, h2, h3, h4, h5, h6]
  · decide

/-- C6: `rerank_results` returns a permutation of the candidates in which
every document's score is the spec's adjusted score (`+2.0` in range,
`-min(distance/10, 1.5)` out of range, `+0.5` on a case-insensitive risk
match), sorted descending by adjusted score and stable: candidates with
equal adjusted scores keep their original relative order. -/
theorem rerankResults_spec_adjust_sort (results : List RetrievedDocument)
    (finding : Finding) :
    List.Perm (rerankResults results finding)
        (results.map fun d => { d with score := specAdjustedScore finding d }) ∧
      (rerankResults results finding).Pairwise (fun a b => b.score ≤ a.score) ∧
      ∀ q : ℚ,
        (rerankResults results finding).filter (fun d => d.score = q) =
          (results.map fun d => { d with score := specAdjustedScore finding d }).filter
            fun d => d.score = q := by
  have hre : rerankResults results finding
      = pySortDesc RetrievedDocument.score
          (results.map fun d => { d with score := specAdjustedScore finding d }) := by
    unfold rerankResults
    dsimp only
    exact congrArg (pySortDesc RetrievedDocument.score)
      (List.map_congr_left fun d _ => by rw [adjustScore_eq_spec])
  refine ⟨?_, ?_, ?_⟩
  · rw [hre]
    exact pySortDesc_perm _ _
  · rw [hre]
    exact pySortDesc_pairwise _ _
  · intro q
    rw [hre]
    exact filter_pySortDesc RetrievedDocument.score q _

/-- C7: `build_query_text` equals the spec's deterministic assembly (finding
type, characteristics, `{size:g}mm`, location, `{level} risk patient`, with
the placeholder when no component is available), the empty finding maps to
exactly `incidental imaging finding follow-up recommendation`, and the
literal suffix `follow-up recommendation` always ends the query. -/
theorem buildQueryText_spec (f : Finding) :
    buildQueryText f = specQueryText f ∧
      buildQueryText {} = str "incidental imaging finding follow-up recommendation" ∧
      ∃ pre : Str, buildQueryText f = pre ++ str "follow-up recommendation" := by
  refine ⟨?_, by decide, ?_⟩
  · unfold buildQueryText specQueryText queryComponents coerceFloat
    dsimp only
    rcases normalizeRisk_cases f.risk_level with h | h | h | h <;> rw [h] <;> rfl
  · unfold buildQueryText
    dsimp only
    exact joinSep_suffix (str " ") _ (str "follow-up recommendation")

/-- C8: `retrieve` with `top_k ≤ 0` is the invalid-argument error, issued
without consulting the vector store (the result is the same for every
store); with a positive `top_k` every successful result has at most `top_k`
chunks. -/
theorem retrieve_top_k_contract (vs vs' : VectorStoreModel) (finding : Finding)
    (top_k : Int) (uf : Bool) :
    (top_k ≤ 0 →
        retrieve vs finding top_k uf = .error (str "top_k must be positive.") ∧
          retrieve vs finding top_k uf = retrieve vs' finding top_k uf) ∧
      ∀ out, retrieve vs finding top_k uf = .ok out → out.length ≤ top_k.toNat := by
  constructor
  · intro h
    constructor
    · unfold retrieve
      rw [if_pos h]
    · unfold retrieve
      rw [if_pos h, if_pos h]
  · intro out h
    unfold retrieve at h
    by_cases ht : top_k ≤ 0
    · rw [if_pos ht] at h
      exact absurd h (by simp)
    · rw [if_neg ht] at h
      dsimp only at h
      rw [← Except.ok.inj h, List.length_map, List.length_take]
      exact min_le_left _ _

/-- C9: `rerank_results` changes only scores: the output has the same length
as the input and the multiset of per-document frames (id, text, metadata) is
exactly that of the input. -/
theorem rerankResults_frame (results : List RetrievedDocument) (finding : Finding) :
    (rerankResults results finding).length = results.length ∧
      List.Perm ((rerankResults results finding).map docFrame)
        (results.map docFrame) := by
  constructor
  · unfold rerankResults
    dsimp only
    rw [pySortDesc_length, List.length_map]
  · unfold rerankResults
    dsimp only
    refine ((pySortDesc_perm RetrievedDocument.score _).map docFrame).trans ?_
    rw [List.map_map]
    exact List.Perm.of_eq (List.map_congr_left fun d _ => rfl)

/-- C10: `_normalize_risk` applies the fixed precedence high > intermediate
> low on the stripped, lowercased value: falsy values give `None`, a value
whose lowered text contains `high` gives `high` regardless of other
keywords, else `intermediate` wins over `low`, else `low`, else `None`; in
particular `low to high` normalizes to `high`. -/
theorem normalizeRisk_precedence (s : Str) :
    normalizeRisk none = none ∧
      normalizeRisk (some []) = none ∧
      (s ≠ [] → strContains (lowerStr (pyStrip s)) (str "high") = true →
          normalizeRisk (some s) = some (str "high")) ∧
      (s ≠ [] → strContains (lowerStr (pyStrip s)) (str "high") = false →
          strContains (lowerStr (pyStrip s)) (str "intermediate") = true →
          normalizeRisk (some s) = some (str "intermediate")) ∧
      (s ≠ [] → strContains (lowerStr (pyStrip s)) (str "high") = false →
          strContains (lowerStr (pyStrip s)) (str "intermediate") = false →
          strContains (lowerStr (pyStrip s)) (str "low") = true →
          normalizeRisk (some s) = some (str "low")) ∧
      (s ≠ [] → strContains (lowerStr (pyStrip s)) (str "high") = false →
          strContains (lowerStr (pyStrip s)) (str "intermediate") = false →
          strContains (lowerStr (pyStrip s)) (str "low") = false →
          normalizeRisk (some s) = none) ∧
      normalizeRisk (some (str "low to high")) = some (str "high") := by
  refine ⟨rfl, rfl, ?_, ?_, ?_, ?_, by decide⟩
  · intro hs h1
    unfold normalizeRisk
    dsimp only
    rw [if_neg hs, h1]
    rfl
  · intro hs h1 h2
    unfold normalizeRisk
    dsimp only
    rw [if_neg hs, h1, h2]
    rfl
  · intro hs h1 h2 h3
    unfold normalizeRisk
    dsimp only
    rw [if_neg hs, h1, h2, h3]
    rfl
  · intro hs h1 h2 h3
    unfold normalizeRisk
    dsimp only
    rw [if_neg hs, h1, h2, h3]
    rfl

end AuDRA
